import Mathlib

/-!
Verification development for the release-planning engine of
aws-go-multi-module-repository-tools.

The Go sources are shallowly embedded: pure Go functions become Lean
functions, Go maps become association lists (iteration where the Go map
order is observable is noted at each site; every use below is followed by
a sort or is order-insensitive), Go `(value, error)` returns become pairs
with `Option String` or `Except String`.  Machine integers are `Int`/`Nat`
with explicit two's-complement wrapping where Go can overflow.
-/

/-! ## Go string primitives (byte/codepoint order helpers) -/

/-- Lexicographic comparison of character lists by codepoint.  Mirrors Go's
bytewise string `<` (UTF-8 byte order coincides with codepoint order). -/
def charListLt : List Char → List Char → Bool
  | _, [] => false
  | [], _ :: _ => true
  | a :: as, b :: bs => if a < b then true else if a = b then charListLt as bs else false

/-- Go string `<`. -/
def strLt (a b : String) : Bool := charListLt a.data b.data

/-- Go string `<=`, used by the sorting in `sort.Strings` and
`sortableModuleTreeNodes`. -/
def strLe (a b : String) : Bool := !(strLt b a)

/-- Go `strings.HasPrefix`. -/
def strHasPfx (s p : String) : Bool := p.data.isPrefixOf s.data

/-- Go `strings.HasSuffix`. -/
def strHasSfx (s p : String) : Bool := p.data.isSuffixOf s.data

/-- Go `strings.TrimPrefix`. -/
def strTrimPfx (s p : String) : String :=
  if strHasPfx s p then ⟨s.data.drop p.data.length⟩ else s

/-- Split a character list at every occurrence of `c` (like Go
`strings.Split`); the empty list yields one empty field. -/
def splitChar (c : Char) : List Char → List (List Char)
  | [] => [[]]
  | x :: xs =>
    let r := splitChar c xs
    if x = c then [] :: r
    else
      match r with
      | [] => [[x]]
      | h :: t => (x :: h) :: t

/-- Index of the last occurrence of `c` in the list (Go `strings.LastIndex`
restricted to a single character needle). -/
def lastIndexOfChar (c : Char) : List Char → Option Nat
  | [] => none
  | x :: xs =>
    match lastIndexOfChar c xs with
    | some i => some (i + 1)
    | none => if x = c then some 0 else none

/-- Join string fields with `/` separators. -/
def joinSlash (l : List String) : String :=
  ⟨List.intercalate ['/'] (l.map String.data)⟩

/-! ## Go `path/filepath` (Unix rules), translated from the Go standard
library: `Clean`, `Rel`, `Split`. -/

/-- Component processing loop of Go `filepath.Clean`: `acc` is the stack of
kept components in reverse order.  Empty and `.` components are dropped;
`..` pops a previous component, is dropped at the root of a rooted path, and
is kept when there is nothing left to pop in a relative path. -/
def cleanComps (rooted : Bool) : List String → List String → List String
  | acc, [] => acc.reverse
  | acc, comp :: rest =>
    if comp = "" ∨ comp = "." then cleanComps rooted acc rest
    else if comp = ".." then
      match acc with
      | top :: acc' =>
        if top = ".." then cleanComps rooted (comp :: acc) rest
        else cleanComps rooted acc' rest
      | [] =>
        if rooted then cleanComps rooted [] rest
        else cleanComps rooted [comp] rest
    else cleanComps rooted (comp :: acc) rest

/-- Go `filepath.Clean` on Unix. -/
def pathClean (s : String) : String :=
  if s = "" then "."
  else
    let rooted := strHasPfx s "/"
    let comps := (splitChar '/' s.data).map (fun l => (⟨l⟩ : String))
    let joined := joinSlash (cleanComps rooted [] comps)
    if rooted then
      if joined = "" then "/" else "/" ++ joined
    else
      if joined = "" then "." else joined

/-- Element list of a cleaned path as walked by the element loop inside Go
`filepath.Rel`: a rooted path contributes a leading empty element, the bare
root `"/"` is a single empty element, and the empty base is no elements. -/
def relComps (p : String) : List String :=
  if p = "" then []
  else if p = "/" then [""]
  else (splitChar '/' p.data).map (fun l => (⟨l⟩ : String))

/-- Drop the longest common prefix of two element lists, returning both
remainders (the position reached by `filepath.Rel`'s matching loop). -/
def dropCommon : List String → List String → List String × List String
  | a :: as, b :: bs => if a = b then dropCommon as bs else (a :: as, b :: bs)
  | as, bs => (as, bs)

/-- Go `filepath.Rel` on Unix (volume names are empty).  Errors exactly when
one path is rooted and the other is not, or when the base has an unmatched
`..` element; otherwise the target is reachable through `..` steps and the
call succeeds. -/
def pathRel (basepath targpath : String) : Except String String :=
  let base := pathClean basepath
  let targ := pathClean targpath
  if targ = base then .ok "."
  else
    let base' := if base = "." then "" else base
    let baseSlashed := strHasPfx base' "/"
    let targSlashed := strHasPfx targ "/"
    if baseSlashed != targSlashed then
      .error ("Rel: cant make " ++ targpath ++ " relative to " ++ basepath)
    else
      let (brem, trem) := dropCommon (relComps base') (relComps targ)
      match brem with
      | [] => .ok (joinSlash trem)
      | b :: _ =>
        if b = ".." then
          .error ("Rel: cant make " ++ targpath ++ " relative to " ++ basepath)
        else .ok (joinSlash (brem.map (fun _ => "..") ++ trem))

/-- Go `filepath.Split`: split after the final separator; the directory part
keeps its trailing slash. -/
def filepathSplit (p : String) : String × String :=
  match lastIndexOfChar '/' p.data with
  | none => ("", p)
  | some i => (⟨p.data.take (i + 1)⟩, ⟨p.data.drop (i + 1)⟩)

deriving instance DecidableEq for Except

example : pathClean "" = "." := by decide
example : pathClean "sub3/" = "sub3" := by decide
example : pathClean "a/../../b" = "../b" := by decide
example : pathClean "/foo/./bar//" = "/foo/bar" := by decide
example : pathRel "/foo/bar" "/foo/bar/a" = .ok "a" := by decide
example : pathRel "/foo/bar" "/other/place" = .ok "../../other/place" := by decide
example : (pathRel "/foo/bar" "relative").isOk = false := by decide
example : pathRel "/foo/bar" "/foo/bar" = .ok "." := by decide
example : filepathSplit "sub3/foo.go" = ("sub3/", "foo.go") := by decide
example : filepathSplit "foo.go" = ("", "foo.go") := by decide

/-! ## Module path tree (gomod module tree source file) -/

/-- Tree node of the module path tree: absolute path, path relative to the
tree root, attribute strings, and the ordered child list. -/
inductive ModuleTreeNode : Type where
  | mk (absPath relPath : String) (attributes : List String)
      (subModules : List ModuleTreeNode)

mutual

def nodeDecEq : (a b : ModuleTreeNode) → Decidable (a = b)
  | .mk a1 r1 t1 s1, .mk a2 r2 t2 s2 =>
    match String.decEq a1 a2 with
    | isFalse h1 => isFalse (fun h => by cases h; exact h1 rfl)
    | isTrue h1 =>
      match String.decEq r1 r2 with
      | isFalse h2 => isFalse (fun h => by cases h; exact h2 rfl)
      | isTrue h2 =>
        match (inferInstanceAs (DecidableEq (List String))) t1 t2 with
        | isFalse h3 => isFalse (fun h => by cases h; exact h3 rfl)
        | isTrue h3 =>
          match nodeListDecEq s1 s2 with
          | isFalse h4 => isFalse (fun h => by cases h; exact h4 rfl)
          | isTrue h4 => isTrue (by rw [h1, h2, h3, h4])

def nodeListDecEq : (a b : List ModuleTreeNode) → Decidable (a = b)
  | [], [] => isTrue rfl
  | [], _ :: _ => isFalse (by simp)
  | _ :: _, [] => isFalse (by simp)
  | x :: xs, y :: ys =>
    match nodeDecEq x y with
    | isFalse h1 => isFalse (fun h => by cases h; exact h1 rfl)
    | isTrue h1 =>
      match nodeListDecEq xs ys with
      | isFalse h2 => isFalse (fun h => by cases h; exact h2 rfl)
      | isTrue h2 => isTrue (by rw [h1, h2])

end

instance : DecidableEq ModuleTreeNode := nodeDecEq

def ModuleTreeNode.absPath : ModuleTreeNode → String
  | .mk a _ _ _ => a

def ModuleTreeNode.relPath : ModuleTreeNode → String
  | .mk _ r _ _ => r

def ModuleTreeNode.attributes : ModuleTreeNode → List String
  | .mk _ _ t _ => t

def ModuleTreeNode.subModules : ModuleTreeNode → List ModuleTreeNode
  | .mk _ _ _ s => s

/-- Replace the child list of a node, keeping every other field. -/
def ModuleTreeNode.withSubs : ModuleTreeNode → List ModuleTreeNode → ModuleTreeNode
  | .mk a r t _, s => .mk a r t s

/-- Go `ModuleTreeNode.Path`: the relative path of the node. -/
def ModuleTreeNode.Path (n : ModuleTreeNode) : String := n.relPath

/-- Go `ModuleTreeNode.AbsPath`. -/
def ModuleTreeNode.AbsPath (n : ModuleTreeNode) : String := n.absPath

/-- Go `ModuleTreeNode.HasAttribute`. -/
def ModuleTreeNode.HasAttribute (n : ModuleTreeNode) (attrib : String) : Bool :=
  n.attributes.contains attrib

/-- Ancestor test on raw paths: equal path, the root wildcard `"."`, or a
`prefix + "/"` relation (Go `ModuleTreeNode.AncestorOf` with `base` for the
node's path). -/
def pathAncOf (base path : String) : Bool :=
  base == "." || base == path || strHasPfx path (base ++ "/")

/-- Go `ModuleTreeNode.AncestorOf`. -/
def ModuleTreeNode.AncestorOf (n : ModuleTreeNode) (path : String) : Bool :=
  pathAncOf n.Path path

mutual

/-- Number of nodes in a subtree (used as explicit recursion fuel; each Go
loop below strictly descends the finite tree, so this bounds its length). -/
def nodeWeight : ModuleTreeNode → Nat
  | .mk _ _ _ subs => 1 + nodeListWeight subs

/-- Number of nodes in a forest. -/
def nodeListWeight : List ModuleTreeNode → Nat
  | [] => 0
  | n :: rest => nodeWeight n + nodeListWeight rest

end

theorem nodeWeight_pos (n : ModuleTreeNode) : 1 ≤ nodeWeight n := by
  cases n with
  | mk a r t s => simp [nodeWeight]

theorem nodeListWeight_subModules_lt (n : ModuleTreeNode) :
    nodeListWeight n.subModules < nodeWeight n := by
  cases n with
  | mk a r t s => simp [nodeWeight, ModuleTreeNode.subModules]

theorem nodeListWeight_append (l₁ l₂ : List ModuleTreeNode) :
    nodeListWeight (l₁ ++ l₂) = nodeListWeight l₁ + nodeListWeight l₂ := by
  induction l₁ with
  | nil => simp [nodeListWeight]
  | cons a as ih => simp [nodeListWeight, ih]; omega

theorem nodeWeight_le_of_mem {m : ModuleTreeNode} {nodes : List ModuleTreeNode}
    (h : m ∈ nodes) : nodeWeight m ≤ nodeListWeight nodes := by
  induction nodes with
  | nil => cases h
  | cons n rest ih =>
    rcases List.mem_cons.mp h with h1 | h2
    · subst h1; simp [nodeListWeight]
    · have := ih h2; simp [nodeListWeight]; omega

/-- Split a sibling layer at the first node that is an ancestor of `path`
(the `for ... break` scan shared by `Insert` and `searchModuleTreeNodes`). -/
def breakAtAncestor (path : String) :
    List ModuleTreeNode →
    Option (List ModuleTreeNode × ModuleTreeNode × List ModuleTreeNode)
  | [] => none
  | n :: rest =>
    if n.AncestorOf path then some ([], n, rest)
    else
      match breakAtAncestor path rest with
      | none => none
      | some (pre, m, post) => some (n :: pre, m, post)

theorem breakAtAncestor_eq_append {path : String} {nodes pre post : List ModuleTreeNode}
    {m : ModuleTreeNode} (h : breakAtAncestor path nodes = some (pre, m, post)) :
    nodes = pre ++ m :: post ∧ m.AncestorOf path = true ∧
      ∀ x ∈ pre, x.AncestorOf path = false := by
  induction nodes generalizing pre with
  | nil => simp [breakAtAncestor] at h
  | cons n rest ih =>
    by_cases hn : n.AncestorOf path
    · simp only [breakAtAncestor, hn, if_true, Option.some.injEq, Prod.mk.injEq] at h
      obtain ⟨h1, h2, h3⟩ := h
      subst h1; subst h2; subst h3
      exact ⟨rfl, hn, by simp⟩
    · simp only [breakAtAncestor, hn, if_false, Bool.false_eq_true] at h
      cases hrec : breakAtAncestor path rest with
      | none => rw [hrec] at h; simp at h
      | some v =>
        obtain ⟨pre', m', post'⟩ := v
        rw [hrec] at h
        simp only [Option.some.injEq, Prod.mk.injEq] at h
        obtain ⟨h1, h2, h3⟩ := h
        obtain ⟨g1, g2, g3⟩ := @ih pre' (by rw [hrec, h2, h3])
        refine ⟨?_, g2, ?_⟩
        · rw [← h1, g1]; simp
        · intro x hx
          rw [← h1] at hx
          rcases List.mem_cons.mp hx with hx1 | hx2
          · subst hx1; exact eq_false_of_ne_true hn
          · exact g3 x hx2

theorem breakAtAncestor_mem {path : String} {nodes pre post : List ModuleTreeNode}
    {m : ModuleTreeNode} (h : breakAtAncestor path nodes = some (pre, m, post)) :
    m ∈ nodes := by
  rcases breakAtAncestor_eq_append h with ⟨h1, _⟩
  rw [h1]; simp

theorem breakAtAncestor_none {path : String} {nodes : List ModuleTreeNode}
    (h : breakAtAncestor path nodes = none) :
    ∀ x ∈ nodes, x.AncestorOf path = false := by
  induction nodes with
  | nil => simp
  | cons n rest ih =>
    by_cases hn : n.AncestorOf path
    · simp [breakAtAncestor, hn] at h
    · intro x hx
      simp only [breakAtAncestor, hn, if_false, Bool.false_eq_true] at h
      cases hrec : breakAtAncestor path rest with
      | none =>
        rcases List.mem_cons.mp hx with h1 | h2
        · subst h1; exact eq_false_of_ne_true hn
        · exact ih hrec x h2
      | some v => obtain ⟨a, b, c⟩ := v; rw [hrec] at h; simp at h

/-- Loop body of Go `searchModuleTreeNodes`, with the running `parent`.  Each
turn of the Go loop descends into the children of a node of the current
layer, so `nodeListWeight` of the starting layer bounds the number of turns;
`fuel` makes that bound structural and the out-of-fuel branch is
unreachable whenever `fuel` exceeds the bound. -/
def searchLoop (path : String) : Nat → List ModuleTreeNode →
    Option ModuleTreeNode → Option ModuleTreeNode
  | 0, _, parent => parent
  | fuel + 1, nodes, parent =>
    match breakAtAncestor path nodes with
    | none => parent
    | some (_, m, _) => searchLoop path fuel m.subModules (some m)

/-- Go `searchModuleTreeNodes`: nearest registered ancestor of `path`. -/
def searchModuleTreeNodes (path : String) (nodes : List ModuleTreeNode) :
    Option ModuleTreeNode :=
  searchLoop path (nodeListWeight nodes + 1) nodes none

/-- Options of the module tree (Go `ModuleTreeOptions`). -/
structure ModuleTreeOptions where
  RootPath : String := ""
deriving DecidableEq

/-- Go `ModuleTree`. -/
structure ModuleTree where
  options : ModuleTreeOptions
  subModules : List ModuleTreeNode
deriving DecidableEq

/-- Go `NewModuleTree`, with the option functions already applied. -/
def NewModuleTree (options : ModuleTreeOptions) : ModuleTree :=
  ⟨options, []⟩

/-- Go `ModuleTree.Search`. -/
def ModuleTree.Search (t : ModuleTree) (path : String) : Option ModuleTreeNode :=
  searchModuleTreeNodes path t.subModules

/-- Go `ModuleTree.Get`: exact-path lookup through `searchModuleTreeNodes`. -/
def ModuleTree.Get (t : ModuleTree) (path : String) : Option ModuleTreeNode :=
  match searchModuleTreeNodes path t.subModules with
  | some node => if node.Path == path then some node else none
  | none => none

/-- Go `ModuleTreeNode.Search`. -/
def ModuleTreeNode.Search (n : ModuleTreeNode) (path : String) : Option ModuleTreeNode :=
  searchModuleTreeNodes path n.subModules

/-- Go `ModuleTreeNode.Get`. -/
def ModuleTreeNode.Get (n : ModuleTreeNode) (path : String) : Option ModuleTreeNode :=
  if n.Path == path then some n
  else
    match searchModuleTreeNodes path n.subModules with
    | some node => if node.Path == path then some node else none
    | none => none

/-- Go `ModuleTreeNode.ParentOf`: ancestor with no registered sub-module
closer to the path. -/
def ModuleTreeNode.ParentOf (n : ModuleTreeNode) (path : String) : Bool :=
  n.AncestorOf path && (n.Search path).isNone

/-- Ordering used by `sortableModuleTreeNodes` (Go sorts by `relPath <`;
any correct sort yields the unique `≤`-sorted arrangement of distinct keys). -/
def nodeLeR (a b : ModuleTreeNode) : Prop := strLe a.Path b.Path = true

instance : DecidableRel nodeLeR := fun a b => by
  unfold nodeLeR; infer_instance

/-- Sort a sibling layer ascending by relative path (Go
`sort.Sort(sortableModuleTreeNodes(...))`). -/
def sortNodes (l : List ModuleTreeNode) : List ModuleTreeNode :=
  List.insertionSort nodeLeR l

/-- Layer-insertion loop of Go `ModuleTree.Insert`: descend into the first
ancestor sibling until none exists, then re-parent any siblings the new node
is an ancestor of, insert it, and re-sort.  Also returns the created node. -/
def insertLayerLoop (newAbs newRel : String) (attrs : List String) :
    Nat → List ModuleTreeNode → List ModuleTreeNode × ModuleTreeNode
  | 0, nodes => (nodes, ModuleTreeNode.mk newAbs newRel attrs [])
  | fuel + 1, nodes =>
    match breakAtAncestor newRel nodes with
    | some (pre, m, post) =>
      let r := insertLayerLoop newAbs newRel attrs fuel m.subModules
      (pre ++ m.withSubs r.1 :: post, r.2)
    | none =>
      let moved := nodes.filter (fun x => pathAncOf newRel x.Path)
      let kept := nodes.filter (fun x => !pathAncOf newRel x.Path)
      let nw := ModuleTreeNode.mk newAbs newRel attrs (sortNodes moved)
      (sortNodes (kept ++ [nw]), nw)

/-- Descend-and-insert phase of Go `ModuleTree.Insert` (see
`insertLayerLoop`; as in `searchLoop` the fuel makes the strictly
descending Go loop structural and its zero branch unreachable). -/
def insertIntoLayer (newAbs newRel : String) (attrs : List String)
    (nodes : List ModuleTreeNode) : List ModuleTreeNode × ModuleTreeNode :=
  insertLayerLoop newAbs newRel attrs (nodeListWeight nodes + 1) nodes

/-- Go `ModuleTree.Insert`.  Returns the created node together with the
updated tree (the Go method mutates the receiver). -/
def ModuleTree.Insert (t : ModuleTree) (modulePath : String)
    (attrs : List String) : Except String (ModuleTreeNode × ModuleTree) :=
  let relE : Except String String :=
    if t.options.RootPath ≠ "" then pathRel t.options.RootPath modulePath
    else .ok modulePath
  match relE with
  | .error e =>
    .error ("module " ++ modulePath ++ " is not nested within " ++
      t.options.RootPath ++ ", " ++ e)
  | .ok moduleRelPath =>
    match t.Get moduleRelPath with
    | some _ =>
      .error ("module already exists with relative path, " ++ modulePath ++
        ", " ++ moduleRelPath)
    | none =>
      let r := insertIntoLayer modulePath moduleRelPath attrs t.subModules
      .ok (r.2, { t with subModules := r.1 })

/-- Fueled trace of repeated `ModuleTreeIterator.Next` calls: the stack
holds its top first, and popping a node pushes its children in order
(`PushReverse`).  Every step pops one node and pushes strictly lighter
content, so `nodeListWeight` of the stack is exactly the number of steps. -/
def iterRunF : Nat → List ModuleTreeNode → List ModuleTreeNode
  | 0, _ => []
  | _, [] => []
  | fuel + 1, n :: rest => n :: iterRunF fuel (n.subModules ++ rest)

/-- Trace of a Go `ModuleTreeIterator` run to exhaustion. -/
def iterRun (stack : List ModuleTreeNode) : List ModuleTreeNode :=
  iterRunF (nodeListWeight stack) stack

/-- Go `ModuleTreeNode.List`: all nodes strictly below `n`, in iterator
order. -/
def ModuleTreeNode.ListNodes (n : ModuleTreeNode) : List ModuleTreeNode :=
  iterRun n.subModules

/-- Go `ModuleTree.List`: each top-level node followed by its `List`. -/
def ModuleTree.ListNodes (t : ModuleTree) : List ModuleTreeNode :=
  t.subModules.flatMap (fun n => n :: n.ListNodes)

/-- Go `ModuleTree.Iterator` followed by exhausting `Next`. -/
def ModuleTree.iterateAll (t : ModuleTree) : List ModuleTreeNode :=
  iterRun t.subModules

/-- Fueled depth-first flattening; each recursive argument is strictly
lighter than `n :: rest`, so fuel above `nodeListWeight` never runs out. -/
def dfsFlattenF : Nat → List ModuleTreeNode → List ModuleTreeNode
  | 0, _ => []
  | _, [] => []
  | fuel + 1, n :: rest =>
    n :: (dfsFlattenF fuel n.subModules ++ dfsFlattenF fuel rest)

/-- Depth-first flattening of a layer: every node precedes its own subtree,
layers left to right. -/
def dfsFlatten (nodes : List ModuleTreeNode) : List ModuleTreeNode :=
  dfsFlattenF (nodeListWeight nodes) nodes

/-- Run a sequence of inserts (paths with optional attribute lists) against a
tree, stopping at the first error. -/
def runInserts (t : ModuleTree) : List (String × List String) → Except String ModuleTree
  | [] => .ok t
  | (p, attrs) :: rest =>
    match t.Insert p attrs with
    | .error e => .error e
    | .ok (_, t') => runInserts t' rest

/-- Run a sequence of plain inserts (no attributes). -/
def runInsertPaths (t : ModuleTree) (paths : List String) : Except String ModuleTree :=
  runInserts t (paths.map (fun p => (p, [])))

example :
    (runInsertPaths (NewModuleTree {}) ["a/f/g", "a", "a/b", "c", "e/f/g"]).map
        (fun t => t.subModules) =
      .ok [ModuleTreeNode.mk "a" "a" []
            [ModuleTreeNode.mk "a/b" "a/b" [] [], ModuleTreeNode.mk "a/f/g" "a/f/g" [] []],
          ModuleTreeNode.mk "c" "c" [] [],
          ModuleTreeNode.mk "e/f/g" "e/f/g" [] []] := by decide

example :
    (runInsertPaths (NewModuleTree { RootPath := "/foo/bar" })
        ["/foo/bar/a/f/g", "/foo/bar/a", "/foo/bar/a/b", "/foo/bar/c", "/foo/bar/e/f/g"]).map
        (fun t => t.subModules) =
      .ok [ModuleTreeNode.mk "/foo/bar/a" "a" []
            [ModuleTreeNode.mk "/foo/bar/a/b" "a/b" [] [],
             ModuleTreeNode.mk "/foo/bar/a/f/g" "a/f/g" [] []],
          ModuleTreeNode.mk "/foo/bar/c" "c" [] [],
          ModuleTreeNode.mk "/foo/bar/e/f/g" "e/f/g" [] []] := by decide

example :
    (runInsertPaths (NewModuleTree {}) [".", "service/s3/internal/configtest", "service/s3"]).map
        (fun t => t.subModules) =
      .ok [ModuleTreeNode.mk "." "." []
            [ModuleTreeNode.mk "service/s3" "service/s3" []
              [ModuleTreeNode.mk "service/s3/internal/configtest"
                "service/s3/internal/configtest" [] []]]] := by decide

example :
    (runInsertPaths (NewModuleTree {}) [".", "a", "a/c", "b", "b/c"]).map
        (fun t => t.ListNodes.map ModuleTreeNode.Path) =
      .ok [".", "a", "a/c", "b", "b/c"] := by decide

example :
    (runInsertPaths (NewModuleTree {}) [".", "a", "a/c", "b", "b/c"]).map
        (fun t => t.iterateAll.map ModuleTreeNode.Path) =
      .ok [".", "a", "a/c", "b", "b/c"] := by decide

/-! ## Change filter (gomod diff source file) -/

/-- Go `IsGoSource`: a Go source file name, not hidden. -/
def IsGoSource (name : String) : Bool :=
  !strHasPfx name "." && strHasSfx name ".go"

/-- Go `IsGoMod`. -/
def IsGoMod (name : String) : Bool := name == "go.mod"

/-- Association-list lookup keyed by strings (embedding of a Go map read). -/
def lookupA {β : Type} : List (String × β) → String → Option β
  | [], _ => none
  | (k, v) :: rest, key => if k = key then some v else lookupA rest key

/-- Association-list write: replace the first binding of the key or append a
new one (embedding of a Go map write). -/
def setA {β : Type} : List (String × β) → String → β → List (String × β)
  | [], key, v => [(key, v)]
  | (k, w) :: rest, key, v =>
    if k = key then (k, v) :: rest else (k, w) :: setA rest key v

/-- Per-directory cache entry of `FilterModuleFiles`. -/
structure ModDir where
  filepaths : List String
  relevant : Bool
deriving DecidableEq

/-- The file loop of Go `FilterModuleFiles`, building the directory cache. -/
def filterFilesLoop (module : ModuleTreeNode) :
    List String → List (String × ModDir) → List (String × ModDir)
  | [], dirCache => dirCache
  | filepathName :: rest, dirCache =>
    let sp := filepathSplit filepathName
    let dir := pathClean sp.1
    let fileName := sp.2
    if !(IsGoSource fileName || IsGoMod fileName) then
      filterFilesLoop module rest dirCache
    else
      match lookupA dirCache dir with
      | some v =>
        if !v.relevant then filterFilesLoop module rest dirCache
        else
          filterFilesLoop module rest
            (setA dirCache dir { v with filepaths := v.filepaths ++ [filepathName] })
      | none =>
        if !module.ParentOf dir then
          filterFilesLoop module rest (setA dirCache dir ⟨[], false⟩)
        else
          filterFilesLoop module rest (setA dirCache dir ⟨[filepathName], true⟩)

/-- Relation for `sort.Strings`. -/
def strLeR (a b : String) : Prop := strLe a b = true

instance : DecidableRel strLeR := fun a b => by
  unfold strLeR; infer_instance

/-- Go `sort.Strings`. -/
def sortStrings (l : List String) : List String :=
  List.insertionSort strLeR l

/-- Go `FilterModuleFiles`.  The Go function ranges over the directory map in
unspecified order before sorting; the sorted result is order-independent, so
the cache is collected in insertion order here.  The second component is the
function's error result, which is syntactically always nil in the source. -/
def FilterModuleFiles (module : ModuleTreeNode) (files : List String) :
    List String × Option String :=
  let dirCache := filterFilesLoop module files []
  let relevantFiles := dirCache.foldl
    (fun acc kv => if kv.2.relevant then acc ++ kv.2.filepaths else acc) []
  (sortStrings relevantFiles, none)

/-- Go `IsModuleChanged`. -/
def IsModuleChanged (module : ModuleTreeNode) (changes : List String) :
    Bool × Option String :=
  let r := FilterModuleFiles module changes
  (r.1.length != 0, r.2)

example :
    (FilterModuleFiles (.mk "." "." [] [])
      ["sub3/foo.go", "sub2/bar.go", "sub1/baz.go", "foo.go"]).1 =
      ["foo.go", "sub1/baz.go", "sub2/bar.go", "sub3/foo.go"] := by decide
example :
    (FilterModuleFiles (.mk "." "." [] []) ["foo.java"]).1 = [] := by decide
example :
    (FilterModuleFiles (.mk "." "." [] []) ["go.mod"]).1 = ["go.mod"] := by decide
example :
    (FilterModuleFiles
      (.mk "." "." [] [.mk "sub1" "sub1" [] [], .mk "sub2" "sub2" [] []])
      ["sub3/foo.go", "sub2/bar.go", "sub1/baz.go", "foo.go"]).1 =
      ["foo.go", "sub3/foo.go"] := by decide
example :
    (FilterModuleFiles
      (.mk "sub1" "sub1" [] [.mk "sub1/subsub1" "sub1/subsub1" [] [],
        .mk "sub1/subsub2" "sub1/subsub2" [] []])
      ["sub3/foo.go", "sub2/bar.go", "sub1/subsub1/foo.go", "sub1/subsub1/bar.go",
        "sub1/subsub2/bar.go", "sub1/notsub/foo.go", "foo.go"]).1 =
      ["sub1/notsub/foo.go"] := by decide
example :
    (FilterModuleFiles
      (.mk "foobar" "foobar" [] [.mk "foobar/sub1" "foobar/sub1" [] []])
      ["foobarbaz/baz.go", "foobar/sub1/sub1.go"]).1 = [] := by decide

/-! ## Semantic versions.

The repository's internal semver package is not under the provided sources
(only its callers in the release sources are), so it is modelled here from
the spec's references to semantic versions ("a semantic version that fails
to parse" is fatal, next versions compare under "semantic-version
ordering", tags use a `v{semver}` convention), following the SemVer 2.0.0
grammar and ordering those words refer to. -/

/-- Decimal digit test. -/
def isDigitChar (c : Char) : Bool := '0' ≤ c && c ≤ '9'

/-- Identifier characters of pre-release and build fields. -/
def isIdentChar (c : Char) : Bool :=
  ('A' ≤ c && c ≤ 'Z') || ('a' ≤ c && c ≤ 'z') || isDigitChar c || c = '-'

/-- Modelled from the spec: parse a decimal number field of a semantic
version (no sign, no leading zero); returns the digits and the rest. -/
def parseIntChars (v : List Char) : Option (List Char × List Char) :=
  match v with
  | [] => none
  | c :: _ =>
    if !isDigitChar c then none
    else
      let t := v.takeWhile isDigitChar
      if c = '0' ∧ t.length ≠ 1 then none
      else some (t, v.dropWhile isDigitChar)

/-- A numeric segment with a forbidden leading zero. -/
def isBadNum (seg : List Char) : Bool :=
  seg.all isDigitChar && decide (1 < seg.length) && seg.headD ' ' = '0'

/-- Modelled from the spec: parse a `-`-introduced pre-release field of
dot-separated identifier segments (no empty segment, no numeric segment
with a leading zero); stops before a `+` build field.  The returned text
keeps its leading `-`. -/
def parsePreChars (v : List Char) : Option (List Char × List Char) :=
  match v with
  | [] => none
  | c :: body =>
    if c ≠ '-' then none
    else
      let t := body.takeWhile (· ≠ '+')
      let rest := body.dropWhile (· ≠ '+')
      if !t.all (fun ch => isIdentChar ch || ch = '.') then none
      else
        let segs := splitChar '.' t
        if segs.any (fun s => s.isEmpty || isBadNum s) then none
        else some ('-' :: t, rest)

/-- Modelled from the spec: parse a `+`-introduced build field of
dot-separated non-empty identifier segments, running to the end of the
version.  The returned text keeps its leading `+`. -/
def parseBuildChars (v : List Char) : Option (List Char × List Char) :=
  match v with
  | [] => none
  | c :: body =>
    if c ≠ '+' then none
    else
      if !body.all (fun ch => isIdentChar ch || ch = '.') then none
      else
        let segs := splitChar '.' body
        if segs.any (fun s => s.isEmpty) then none
        else some ('+' :: body, [])

/-- Modelled from the spec: the parsed form of a semantic version exposed by
the repository's internal semver package.  `Prerelease` and `Build` keep
their leading `-` and `+`; `Short` holds the suffix that canonicalization
appends to a shortened `vM` or `vM.m` version; `Err` describes a parse
failure. -/
structure Parsed where
  Major : String := ""
  Minor : String := ""
  Patch : String := ""
  Short : String := ""
  Prerelease : String := ""
  Build : String := ""
  Err : String := ""
deriving DecidableEq

/-- Modelled from the spec: parse a `v`-prefixed semantic version, shortened
forms permitted, mirroring the `(parsed, ok)` shape used by the release
calculator. -/
def semverParse (s : String) : Parsed × Bool :=
  match s.data with
  | [] => ({ Err := "missing v prefix" }, false)
  | c :: afterV =>
    if c ≠ 'v' then ({ Err := "missing v prefix" }, false)
    else
      match parseIntChars afterV with
      | none => ({ Err := "bad major version" }, false)
      | some (major, rest) =>
        if rest.isEmpty then
          ({ Major := ⟨major⟩, Minor := "0", Patch := "0", Short := ".0.0" }, true)
        else if rest.headD ' ' ≠ '.' then ({ Err := "bad minor prefix" }, false)
        else
          match parseIntChars (rest.drop 1) with
          | none => ({ Err := "bad minor version" }, false)
          | some (minor, rest2) =>
            if rest2.isEmpty then
              ({ Major := ⟨major⟩, Minor := ⟨minor⟩, Patch := "0", Short := ".0" }, true)
            else if rest2.headD ' ' ≠ '.' then ({ Err := "bad patch prefix" }, false)
            else
              match parseIntChars (rest2.drop 1) with
              | none => ({ Err := "bad patch version" }, false)
              | some (patch, rest3) =>
                let base : Parsed := { Major := ⟨major⟩, Minor := ⟨minor⟩, Patch := ⟨patch⟩ }
                let preE : Option (List Char × List Char) :=
                  if rest3.headD ' ' = '-' then parsePreChars rest3 else some ([], rest3)
                match preE with
                | none => ({ Err := "bad prerelease" }, false)
                | some (pre, rest4) =>
                  let buildE : Option (List Char × List Char) :=
                    if rest4.headD ' ' = '+' then parseBuildChars rest4 else some ([], rest4)
                  match buildE with
                  | none => ({ Err := "bad build" }, false)
                  | some (build, rest5) =>
                    if !rest5.isEmpty then ({ Err := "junk on end" }, false)
                    else ({ base with Prerelease := ⟨pre⟩, Build := ⟨build⟩ }, true)

/-- Modelled from the spec: whether a version parses. -/
def semverIsValid (v : String) : Bool := (semverParse v).2

/-- Modelled from the spec: canonical form of a version — empty for an
invalid version, the build field stripped, shortened versions completed
with zero fields. -/
def Canonical (v : String) : String :=
  let p := semverParse v
  if !p.2 then ""
  else if p.1.Build ≠ "" then ⟨v.data.take (v.data.length - p.1.Build.data.length)⟩
  else if p.1.Short ≠ "" then v ++ p.1.Short
  else v

/-- Modelled from the spec: compare two decimal number fields (longer means
larger; equal length falls back to character order). -/
def compareIntStr (x y : String) : Int :=
  if x = y then 0
  else if x.data.length < y.data.length then -1
  else if y.data.length < x.data.length then 1
  else if charListLt x.data y.data then -1
  else 1

/-- Modelled from the spec: compare dot-separated pre-release segments —
numeric segments sort before alphanumeric ones and among themselves by
value; a strict prefix sorts first. -/
def comparePreSegs : List (List Char) → List (List Char) → Int
  | [], [] => -1
  | [], _ :: _ => -1
  | _ :: _, [] => 1
  | dx :: xs, dy :: ys =>
    if dx = dy then comparePreSegs xs ys
    else
      let ix := dx.all isDigitChar
      let iy := dy.all isDigitChar
      if ix != iy then (if ix then -1 else 1)
      else if ix ∧ dx.length < dy.length then -1
      else if ix ∧ dy.length < dx.length then 1
      else if charListLt dx dy then -1
      else 1

/-- Modelled from the spec: pre-release precedence — the absence of a
pre-release field outranks any pre-release field. -/
def comparePrerelease (x y : String) : Int :=
  if x = y then 0
  else if x = "" then 1
  else if y = "" then -1
  else comparePreSegs (splitChar '.' (x.data.drop 1)) (splitChar '.' (y.data.drop 1))

/-- Modelled from the spec: semantic-version ordering on version strings;
build fields are ignored, invalid versions sort below valid ones. -/
def semverCompare (v w : String) : Int :=
  let pv := semverParse v
  let pw := semverParse w
  if !pv.2 ∧ !pw.2 then 0
  else if !pv.2 then -1
  else if !pw.2 then 1
  else
    let cM := compareIntStr pv.1.Major pw.1.Major
    if cM ≠ 0 then cM
    else
      let cm := compareIntStr pv.1.Minor pw.1.Minor
      if cm ≠ 0 then cm
      else
        let cp := compareIntStr pv.1.Patch pw.1.Patch
        if cp ≠ 0 then cp
        else comparePrerelease pv.1.Prerelease pw.1.Prerelease

/-- Modelled from the spec: format a parsed version back to its string (the
internal package's `String` method as exercised by the release tests:
`v{major}.{minor}.{patch}` followed by the stored pre-release and build
fields). -/
def Parsed.render (p : Parsed) : String :=
  "v" ++ p.Major ++ "." ++ p.Minor ++ "." ++ p.Patch ++ p.Prerelease ++ p.Build

example : semverParse "v1.1.0-preview.1" =
    ({ Major := "1", Minor := "1", Patch := "0", Prerelease := "-preview.1" }, true) := by decide
example : (semverParse "1.1.0").2 = false := by decide
example : Canonical "v1.1.0+build.12345" = "v1.1.0" := by decide
example : Canonical "1.1.0" = "" := by decide
example : Canonical "v1" = "v1.0.0" := by decide
example : semverCompare "v1.1.0" "v1.1.0-rc.5" = 1 := by decide
example : semverCompare "v1.1.0-preview.2" "v1.1.0-preview.1" = 1 := by decide
example : semverCompare "v1.0.1" "v1.0.0" = 1 := by decide
example : semverCompare "v1.1.0-preview" "v1.1.0-preview.1" = -1 := by decide
example : semverCompare "v2.0.0" "v10.0.0" = -1 := by decide

/-! ## Module configuration and changelog model -/

/-- Per-module configuration from the repository tooling config (root
package source file): tag exemption, pre-release track, alternate metadata
location. -/
structure ModuleConfig where
  NoTag : Bool := false
  PreRelease : String := ""
  MetadataPackage : String := ""
deriving DecidableEq

/-- Modelled from the spec: one changelog entry — an identifier, a change
type, and the module paths it applies to (the changelog package is not
under the provided sources). -/
structure ChangeAnnot where
  ID : String := ""
  Typ : String := ""
  Modules : List String := []
deriving DecidableEq

/-- Change type of an entry marking a feature (minor bump). -/
def FeatureChangeType : String := "feature"

/-- Change type of an entry marking a bug fix (patch bump). -/
def BugFixChangeType : String := "bugfix"

/-- Change type of an entry marking a dependency update (patch bump). -/
def DependencyChangeType : String := "dependency"

/-- Change type of an entry requesting release promotion. -/
def ReleaseChangeType : String := "release"

/-- Modelled from the spec: bump sizes — default(patch), patch, minor, and
release promotion; release promotion outranks minor, which outranks
patch/default. -/
inductive SemVerIncrement : Type where
  | DefaultBump
  | PatchBump
  | MinorBump
  | ReleaseBump
deriving DecidableEq

/-- Rank giving the ordering of bump sizes. -/
def SemVerIncrement.rank : SemVerIncrement → Nat
  | .DefaultBump => 0
  | .PatchBump => 1
  | .MinorBump => 2
  | .ReleaseBump => 3

/-- Modelled from the spec: the bump size a single change type asks for. -/
def changeTypeIncrement (t : String) : SemVerIncrement :=
  if t = FeatureChangeType then .MinorBump
  else if t = ReleaseChangeType then .ReleaseBump
  else if t = BugFixChangeType ∨ t = DependencyChangeType then .PatchBump
  else .DefaultBump

/-- Modelled from the spec: derive the aggregated bump size of a set of
changelog entries — the largest requested bump, defaulting to a patch-level
bump. -/
def GetVersionIncrement (annots : List ChangeAnnot) : SemVerIncrement :=
  annots.foldl
    (fun acc a =>
      let b := changeTypeIncrement a.Typ
      if acc.rank < b.rank then b else acc)
    .DefaultBump

/-! ## golang.org/x/mod `module.SplitPathVersion` (translated from
x/mod v0.5.1, the dependency pinned by the repository). -/

/-- `splitGopkgIn` of x/mod: gopkg.in paths must end in `.vN`. -/
def splitGopkgIn (path : String) : String × String × Bool :=
  if !strHasPfx path "gopkg.in/" then (path, "", false)
  else
    let chars := path.data
    let i1 := if strHasSfx path "-unstable" then chars.length - 9 else chars.length
    let numLen := ((chars.take i1).reverse.takeWhile isDigitChar).length
    let i := i1 - numLen
    if i ≤ 1 ∨ (chars.take i).getLast? ≠ some 'v' ∨
        (chars.take (i - 1)).getLast? ≠ some '.' then
      (path, "", false)
    else
      let pathMajor := chars.drop (i - 2)
      if pathMajor.length ≤ 2 ∨
          (pathMajor.drop 2).headD ' ' = '0' ∧ pathMajor ≠ ['.', 'v', '0'] then
        (path, "", false)
      else (⟨chars.take (i - 2)⟩, ⟨pathMajor⟩, true)

/-- `module.SplitPathVersion` of x/mod: split a module path into its prefix
and a `/vN` major-version suffix when one is present. -/
def SplitPathVersion (path : String) : String × String × Bool :=
  if strHasPfx path "gopkg.in/" then splitGopkgIn path
  else
    let chars := path.data
    let tailChars := chars.reverse.takeWhile (fun c => isDigitChar c || c = '.')
    let i := chars.length - tailChars.length
    let dot := tailChars.any (· = '.')
    if i ≤ 1 ∨ i = chars.length ∨ (chars.take i).getLast? ≠ some 'v' ∨
        (chars.take (i - 1)).getLast? ≠ some '/' then
      (path, "", true)
    else
      let pathMajor := chars.drop (i - 2)
      if dot ∨ pathMajor.length ≤ 2 ∨ (pathMajor.drop 2).headD ' ' = '0' ∨
          pathMajor = ['/', 'v', '1'] then
        (path, "", true)
      else (⟨chars.take (i - 2)⟩, ⟨pathMajor⟩, true)

example : SplitPathVersion "github.com/aws/aws-sdk-go-v2/service/shinynew" =
    ("github.com/aws/aws-sdk-go-v2/service/shinynew", "", true) := by decide
example : SplitPathVersion "github.com/aws/aws-sdk-go-v2/service/shinynew/v2" =
    ("github.com/aws/aws-sdk-go-v2/service/shinynew", "/v2", true) := by decide
example : SplitPathVersion "example.com/mod/v1" =
    ("example.com/mod/v1", "", true) := by decide

/-! ## Version calculator (release source file) -/

/-- Go `strconv.Atoi`: optional sign, decimal digits, 64-bit range. -/
def goAtoi (s : String) : Except String Int :=
  match s.data with
  | [] => .error "invalid syntax"
  | c :: rest =>
    let signed : Bool × List Char :=
      if c = '-' then (true, rest)
      else if c = '+' then (false, rest)
      else (false, c :: rest)
    if signed.2.isEmpty || !signed.2.all isDigitChar then .error "invalid syntax"
    else
      let n : Nat := signed.2.foldl (fun acc d => acc * 10 + (d.toNat - '0'.toNat)) 0
      let i : Int := if signed.1 then -(n : Int) else (n : Int)
      if i < -(2 ^ 63) ∨ 2 ^ 63 - 1 < i then .error "value out of range"
      else .ok i

/-- Go `strconv.Itoa`. -/
def goItoa (i : Int) : String :=
  if i < 0 then "-" ++ Nat.repr i.natAbs else Nat.repr i.toNat

/-- Two's-complement wrap of a 64-bit signed addition result (Go `int`
arithmetic wraps silently). -/
def wrap64 (i : Int) : Int := (i + 2 ^ 63) % 2 ^ 64 - 2 ^ 63

/-- Go `incrementStrInt` (the Go nil-pointer guard cannot fire: every call
passes the address of a struct field). -/
def incrementStrInt (v : String) : Except String String :=
  match goAtoi v with
  | .error e => .error e
  | .ok i => .ok (goItoa (wrap64 (i + 1)))

/-- Go `incrementPrerelease`: switch to the configured identifier when the
current pre-release does not carry it, otherwise increment the trailing
dotted number, starting at `.1`. -/
def incrementPrerelease (prerelease identifier : String) : Except String String :=
  let identifier := if !strHasSfx identifier "-" then "-" ++ identifier else identifier
  if identifier.length > 0 && !strHasPfx prerelease identifier then .ok identifier
  else
    match lastIndexOfChar '.' prerelease.data with
    | none => .ok (prerelease ++ ".1")
    | some index =>
      match goAtoi ⟨prerelease.data.drop (index + 1)⟩ with
      | .error e => .error ("failed to parse pre-release version number: " ++ e)
      | .ok i => .ok (⟨prerelease.data.take (index + 1)⟩ ++ goItoa (wrap64 (i + 1)))

/-- Go `formatPreRelease`. -/
def formatPreRelease (identifier : String) : String :=
  if !strHasPfx identifier "-" then "-" ++ identifier else identifier

/-- Go `getNewModuleVersion`: first version of a module with no prior tag. -/
def getNewModuleVersion (pathMajor : String) (increment : SemVerIncrement)
    (config : ModuleConfig) (preReleaseIdentifier : String) : String :=
  let nextVersion := if pathMajor.length = 0 then "v1.0.0" else pathMajor ++ ".0.0"
  let isPreRelease := preReleaseIdentifier.length > 0
  if increment = .ReleaseBump ∧ !isPreRelease then nextVersion
  else
    let identifier :=
      if preReleaseIdentifier.length > 0 then preReleaseIdentifier else config.PreRelease
    if identifier.length > 0 then nextVersion ++ "-" ++ identifier
    else nextVersion ++ "-preview"

/-- Go `calculatePreReleaseVersion` (global preview mode). -/
def calculatePreReleaseVersion (parsed : Parsed) (increment : SemVerIncrement)
    (preReleaseIdentifier : String) : Except String String :=
  if increment = .ReleaseBump ∨ parsed.Prerelease.length > 0 then
    .ok ({ parsed with Prerelease := formatPreRelease preReleaseIdentifier }).render
  else
    let stepped : Except String Parsed :=
      match increment with
      | .MinorBump =>
        match incrementStrInt parsed.Minor with
        | .error e => .error e
        | .ok m => .ok { parsed with Minor := m, Patch := "0" }
      | _ =>
        match incrementStrInt parsed.Patch with
        | .error e => .error e
        | .ok p => .ok { parsed with Patch := p }
    match stepped with
    | .error e => .error e
    | .ok p2 =>
      let identifier :=
        if !strHasPfx preReleaseIdentifier "-" then "-" ++ preReleaseIdentifier
        else preReleaseIdentifier
      .ok ({ p2 with Prerelease := identifier }).render

/-- Go `calculateNextVersion` (lower-case source function; no preview
identifier requested). -/
def calculateNextVersion (parsed : Parsed) (increment : SemVerIncrement)
    (config : ModuleConfig) : Except String String :=
  if increment = .ReleaseBump then
    if parsed.Prerelease.length = 0 then
      .error "changelog annotation requests release bump, but latest tag is not a pre-release"
    else .ok ({ parsed with Prerelease := "" }).render
  else if parsed.Prerelease.length > 0 then
    match incrementPrerelease parsed.Prerelease config.PreRelease with
    | .error e => .error e
    | .ok pre => .ok ({ parsed with Prerelease := pre }).render
  else if parsed.Prerelease.length = 0 ∧ config.PreRelease.length > 0 then
    match incrementStrInt parsed.Patch with
    | .error e => .error e
    | .ok p =>
      let identifier :=
        if !strHasPfx config.PreRelease "-" then "-" ++ config.PreRelease
        else config.PreRelease
      .ok ({ parsed with Patch := p, Prerelease := identifier }).render
  else if increment = .MinorBump then
    match incrementStrInt parsed.Minor with
    | .error e => .error e
    | .ok m => .ok ({ parsed with Minor := m, Patch := "0" }).render
  else
    match incrementStrInt parsed.Patch with
    | .error e => .error e
    | .ok p => .ok ({ parsed with Patch := p }).render

/-- Go `CalculateNextVersion` (exported): next version for a module from its
latest tag, configuration, applicable changelog entries, and the optional
requested preview identifier. -/
def CalculateNextVersion (modulePath latest : String) (config : ModuleConfig)
    (annots : List ChangeAnnot) (preReleaseIdentifier : String) :
    Except String String :=
  let sp := SplitPathVersion modulePath
  if !sp.2.2 then .error "invalid module path"
  else
    let pathMajor := strTrimPfx sp.2.1 "/"
    let increment := GetVersionIncrement annots
    let isPreRelease := preReleaseIdentifier.length > 0
    if latest.length = 0 then
      .ok (getNewModuleVersion pathMajor increment config preReleaseIdentifier)
    else
      let pr := semverParse (Canonical latest)
      if !pr.2 then
        .error ("failed to parse semver: " ++ latest ++ ", " ++ pr.1.Err)
      else
        let nextE :=
          if isPreRelease then
            calculatePreReleaseVersion pr.1 increment preReleaseIdentifier
          else calculateNextVersion pr.1 increment config
        match nextE with
        | .error e => .error e
        | .ok next =>
          if semverCompare next latest ≤ 0 then
            .error ("computed next version " ++ next ++ " is not higher then " ++ latest)
          else .ok next

example : CalculateNextVersion "github.com/aws/aws-sdk-go-v2/service/shinynew" "" {} [] "" =
    .ok "v1.0.0-preview" := by decide
example : CalculateNextVersion "github.com/aws/aws-sdk-go-v2/service/shinynew" "" {}
    [{ Typ := ReleaseChangeType }] "" = .ok "v1.0.0" := by decide
example : CalculateNextVersion "github.com/aws/aws-sdk-go-v2/service/shinynew/v2" "" {} [] "" =
    .ok "v2.0.0-preview" := by decide
example : CalculateNextVersion "github.com/aws/aws-sdk-go-v2/service/shinynew/v2" "" {}
    [{ Typ := ReleaseChangeType }] "" = .ok "v2.0.0" := by decide
example : CalculateNextVersion "github.com/aws/aws-sdk-go-v2/service/existing" "v1.0.0" {} [] "" =
    .ok "v1.0.1" := by decide
example : CalculateNextVersion "github.com/aws/aws-sdk-go-v2/service/existing" "v1.0.0" {}
    [{ Typ := BugFixChangeType }] "" = .ok "v1.0.1" := by decide
example : CalculateNextVersion "github.com/aws/aws-sdk-go-v2/service/existing" "v1.0.1" {}
    [{ Typ := FeatureChangeType }] "" = .ok "v1.1.0" := by decide
example : CalculateNextVersion "github.com/aws/aws-sdk-go-v2/service/existing" "v1.0.1"
    { PreRelease := "rc" } [] "" = .ok "v1.0.2-rc" := by decide
example : CalculateNextVersion "github.com/aws/aws-sdk-go-v2/service/existing" "v1.1.0-preview"
    { PreRelease := "preview" } [] "" = .ok "v1.1.0-preview.1" := by decide
example : CalculateNextVersion "github.com/aws/aws-sdk-go-v2/service/existing" "v1.1.0-preview.1"
    { PreRelease := "preview" } [{ Typ := FeatureChangeType }] "" =
    .ok "v1.1.0-preview.2" := by decide
example : CalculateNextVersion "github.com/aws/aws-sdk-go-v2/service/existing" "v1.1.0-preview.2"
    { PreRelease := "rc" } [{ Typ := FeatureChangeType }] "" = .ok "v1.1.0-rc" := by decide
example : (CalculateNextVersion "github.com/aws/aws-sdk-go-v2/service/existing" "v1.1.0-rc.5"
    { PreRelease := "alpha" } [{ Typ := FeatureChangeType }] "").isOk = false := by decide
example : CalculateNextVersion "github.com/aws/aws-sdk-go-v2/service/existing" "v1.1.0-rc.5" {}
    [{ Typ := ReleaseChangeType }] "" = .ok "v1.1.0" := by decide
example : (CalculateNextVersion "github.com/aws/aws-sdk-go-v2/service/existing" "1.1.0" {}
    [] "").isOk = false := by decide
example : CalculateNextVersion "github.com/aws/aws-sdk-go-v2/service/existing"
    "v1.1.0+build.12345" {} [] "" = .ok "v1.1.1" := by decide

/-! ## Module records, change bits, dependency propagation (release source
file).  Go maps of modules become association lists; sites where the Go map
iteration order is observable are noted. -/

/-- Projection of a parsed `go.mod` file: the release engine reads only the
required module paths (`File.Require[i].Mod.Path`). -/
structure ModFile where
  Require : List String := []
deriving DecidableEq

/-- Go `Module` of the release package: computed release state of one
repository module (named `RepoModule` here because the root name `Module`
is taken by Mathlib).  The `Changes` bit field is a Go `uint64`; only three
fixed bits are ever set, so plain `Nat` bitwise operations coincide with
the 64-bit ones. -/
structure RepoModule where
  File : ModFile := {}
  RelativeRepoPath : String := ""
  Latest : String := ""
  Next : String := ""
  Changes : Nat := 0
  FileChanges : List String := []
  ChangeAnnots : List ChangeAnnot := []
  ModuleConfig : ModuleConfig := {}
deriving DecidableEq

/-- Go `SourceChange` = `1 << 63`. -/
def SourceChange : Nat := 2 ^ 63

/-- Go `NewModule` = `1 << 62`. -/
def NewModule : Nat := 2 ^ 62

/-- Go `DependencyUpdate` = `1 << 61`. -/
def DependencyUpdate : Nat := 2 ^ 61

/-- Modelled from the spec: append a work-list entry only when it is not
already pending (the root-package helper `AppendIfNotPresent` used when the
propagation "re-enqueues the dependent" is not under the provided
sources). -/
def AppendIfNotPresent (l : List String) (s : String) : List String :=
  if l.contains s then l else l ++ [s]

/-- Add one inverse-dependency edge `key -> dep` to the graph. -/
def graphAdd (g : List (String × List String)) (key dep : String) :
    List (String × List String) :=
  match lookupA g key with
  | some l => setA g key (l ++ [dep])
  | none => g ++ [(key, [dep])]

/-- Go `buildInverseDependencyGraph`: for every module, add an edge from
each of its in-repo requirements to itself.  The Go map is ranged in
unspecified order; the association-list order is used here (the worklist is
sorted afterwards, and no property proved below depends on the order inside
a dependent list). -/
def buildInverseDependencyGraph (modules : List (String × RepoModule)) :
    List (String × List String) :=
  modules.foldl
    (fun g kv =>
      kv.2.File.Require.foldl
        (fun g' requireModPath =>
          if (lookupA modules requireModPath).isSome then
            graphAdd g' requireModPath kv.1
          else g')
        g)
    []

/-- Inner dependent loop of Go `CalculateDependencyUpdates`: set the
`DependencyUpdate` bit of each dependent that does not carry it yet and
re-enqueue dependents that themselves have dependents. -/
def markDependents (graph : List (String × List String)) :
    List String → List (String × RepoModule) → List String →
    List (String × RepoModule) × List String
  | [], modules, toVisit => (modules, toVisit)
  | dependent :: rest, modules, toVisit =>
    match lookupA modules dependent with
    | none => markDependents graph rest modules toVisit
    | some dm =>
      if dm.Changes &&& DependencyUpdate ≠ 0 then
        markDependents graph rest modules toVisit
      else
        let modules' := setA modules dependent
          { dm with Changes := dm.Changes ||| DependencyUpdate }
        let toVisit' :=
          if (lookupA graph dependent).isSome then AppendIfNotPresent toVisit dependent
          else toVisit
        markDependents graph rest modules' toVisit'

/-- Worklist loop of Go `CalculateDependencyUpdates`.  A graph edge always
points at an in-repo module, so the `none` lookup arm is unreachable (the Go
code indexes the map without a check).  The loop terminates because a module
is re-enqueued only when its `DependencyUpdate` bit just transitioned from
unset to set, which happens at most once per module; `fuel` carries that
bound structurally, and the out-of-fuel error is unreachable for the fuel
supplied by `CalculateDependencyUpdates`. -/
def depLoop (graph : List (String × List String)) :
    Nat → List (String × RepoModule) → List String →
    Except String (List (String × RepoModule))
  | _, modules, [] => .ok modules
  | 0, _, _ :: _ => .error "propagation fuel exhausted"
  | fuel + 1, modules, current :: rest =>
    match lookupA modules current with
    | none => depLoop graph fuel modules rest
    | some m =>
      if m.Changes = 0 then depLoop graph fuel modules rest
      else
        let dependents := (lookupA graph current).getD []
        if m.ModuleConfig.NoTag ∧ 0 < dependents.length then
          .error ("module " ++ current ++ " is configured for no releases, but has " ++
            Nat.repr dependents.length ++ " dependents")
        else if m.ModuleConfig.NoTag then depLoop graph fuel modules rest
        else
          let r := markDependents graph dependents modules rest
          depLoop graph fuel r.1 r.2

/-- Go `CalculateDependencyUpdates`: seed the worklist with every module
that has dependents, sorted, then propagate the `DependencyUpdate` bit.
Returns the updated module map (the Go function mutates it in place). -/
def CalculateDependencyUpdates (modules : List (String × RepoModule)) :
    Except String (List (String × RepoModule)) :=
  let graph := buildInverseDependencyGraph modules
  let toVisit := sortStrings (graph.map (·.1))
  depLoop graph (toVisit.length + 2 * modules.length + 1) modules toVisit

/-! ## Release manifest builder (release source file) -/

/-- Go `ModuleManifest`. -/
structure ModuleManifest where
  ModulePath : String := ""
  From : String := ""
  To : String := ""
  Changes : Nat := 0
  FileChanges : List String := []
  Annots : List String := []
deriving DecidableEq

/-- Go `Manifest` (the module map becomes an association list keyed by
relative repository path). -/
structure Manifest where
  ID : String := ""
  WithReleaseTag : Bool := false
  Modules : List (String × ModuleManifest) := []
  Tags : List String := []
deriving DecidableEq

/-- Go `annotationsToIDs`. -/
def annotationsToIDs (annots : List ChangeAnnot) : List String :=
  annots.map (·.ID)

/-- Modelled from the spec: format a version-control tag as
`{relative-path}/{version}`, or the bare `{version}` for the repository
root `"."` (the git package defining `ToModuleTag` is not under the
provided sources; its error result never fires for the computed versions
passed to it). -/
def ToModuleTag (relPath version : String) : Except String String :=
  if relPath = "." then .ok version else .ok (relPath ++ "/" ++ version)

/-- Go `FindModuleViaRelativeRepoPath`: first module whose relative
repository path matches (the Go map range order is unspecified; distinct
modules have distinct relative paths in every discovered map). -/
def FindModuleViaRelativeRepoPath (modules : List (String × RepoModule))
    (relPath : String) : Option RepoModule :=
  match modules with
  | [] => none
  | (_, v) :: rest =>
    if v.RelativeRepoPath = relPath then some v
    else FindModuleViaRelativeRepoPath rest relPath

/-- Module loop of Go `BuildReleaseManifest`: skip unchanged or tag-exempt
modules, compute each next version, record the module manifest under its
relative path, and collect its tag. -/
def buildModulesLoop (preRelease : String) (verbose : Bool) :
    List (String × RepoModule) → List (String × ModuleManifest) → List String →
    Except String (List (String × ModuleManifest) × List String)
  | [], acc, tags => .ok (acc, tags)
  | (modulePath, m) :: rest, acc, tags =>
    if m.Changes = 0 ∨ m.ModuleConfig.NoTag then
      buildModulesLoop preRelease verbose rest acc tags
    else
      match CalculateNextVersion modulePath m.Latest m.ModuleConfig m.ChangeAnnots preRelease with
      | .error e => .error e
      | .ok nextVersion =>
        let fileChanges := if verbose then m.FileChanges else []
        let mm : ModuleManifest :=
          { ModulePath := modulePath, From := m.Latest, To := nextVersion,
            Changes := m.Changes, FileChanges := fileChanges,
            Annots := annotationsToIDs m.ChangeAnnots }
        match ToModuleTag m.RelativeRepoPath nextVersion with
        | .error e => .error e
        | .ok moduleTag =>
          buildModulesLoop preRelease verbose rest
            (setA acc m.RelativeRepoPath mm) (tags ++ [moduleTag])

/-- Go `BuildReleaseManifest`: build the per-module map and tag list, then
apply the single-module adjustment (a repository whose tree holds exactly
one module uses that module's version as the release id and creates no
overarching release tag) and sort the tags. -/
def BuildReleaseManifest (moduleTree : ModuleTree) (id : String)
    (modules : List (String × RepoModule)) (verbose : Bool) (preRelease : String) :
    Except String Manifest :=
  match buildModulesLoop preRelease verbose modules [] [] with
  | .error e => .error e
  | .ok (mms, tags) =>
    match moduleTree.ListNodes with
    | [n] =>
      match lookupA mms n.Path with
      | some rootChangeModule =>
        .ok { ID := rootChangeModule.To, WithReleaseTag := false,
              Modules := mms, Tags := sortStrings tags }
      | none =>
        match FindModuleViaRelativeRepoPath modules n.Path with
        | some rootRepoModule =>
          .ok { ID := rootRepoModule.Latest, WithReleaseTag := false,
                Modules := mms, Tags := sortStrings tags }
        | none =>
          .error ("root module metadata not found, " ++ n.Path)
    | _ =>
      .ok { ID := id, WithReleaseTag := true, Modules := mms,
            Tags := sortStrings tags }

/-- Module A of the spec's propagation scenario: source-changed, no
requirements. -/
def depModA : RepoModule :=
  { RelativeRepoPath := "a", Latest := "v1.0.0", Changes := SourceChange }

/-- Module B of the propagation scenario: requires A. -/
def depModB : RepoModule :=
  { RelativeRepoPath := "b", Latest := "v1.0.0",
    File := { Require := ["example.com/a"] } }

/-- Module C of the propagation scenario: requires B. -/
def depModC : RepoModule :=
  { RelativeRepoPath := "c", Latest := "v1.0.0",
    File := { Require := ["example.com/b"] } }

/-- The propagation scenario's module map. -/
def depMods : List (String × RepoModule) :=
  [("example.com/a", depModA), ("example.com/b", depModB), ("example.com/c", depModC)]

example :
    CalculateDependencyUpdates depMods =
      .ok [("example.com/a", depModA),
           ("example.com/b", { depModB with Changes := DependencyUpdate }),
           ("example.com/c", { depModC with Changes := DependencyUpdate })] := by
  decide

/-- The sdk root module of the manifest builder's multi-module test data. -/
def sdkRootModule : RepoModule :=
  { File := { Require := ["github.com/aws/smithy-go", "github.com/google/go-cmp",
      "github.com/jmespath/go-jmespath"] },
    RelativeRepoPath := ".", Latest := "v1.0.0" }

/-- The config module of the multi-module test data: source-changed. -/
def configModule : RepoModule :=
  { File := { Require := ["github.com/aws/aws-sdk-go-v2", "github.com/google/go-cmp"] },
    RelativeRepoPath := "config", Latest := "v1.0.0",
    Changes := SourceChange, FileChanges := ["config/foo.go"] }

/-- The single-module test data: a source-changed root module. -/
def smithyModule : RepoModule :=
  { File := { Require := ["github.com/google/go-cmp"] },
    RelativeRepoPath := ".", Latest := "v1.2.3",
    Changes := SourceChange, FileChanges := ["config/foo.go"] }

example :
    (runInsertPaths (NewModuleTree {}) [".", "config"]).map
      (fun tree =>
        BuildReleaseManifest tree "2021-10-27"
          [("github.com/aws/aws-sdk-go-v2", sdkRootModule),
           ("github.com/aws/aws-sdk-go-v2/config", configModule)] false "") =
    .ok (.ok { ID := "2021-10-27", WithReleaseTag := true,
               Modules := [("config",
                 { ModulePath := "github.com/aws/aws-sdk-go-v2/config",
                   From := "v1.0.0", To := "v1.0.1", Changes := SourceChange })],
               Tags := ["config/v1.0.1"] }) := by decide

example :
    (runInsertPaths (NewModuleTree {}) ["."]).map
      (fun tree =>
        BuildReleaseManifest tree "2021-10-27"
          [("github.com/aws/smithy-go", smithyModule)] false "") =
    .ok (.ok { ID := "v1.2.4", WithReleaseTag := false,
               Modules := [(".",
                 { ModulePath := "github.com/aws/smithy-go",
                   From := "v1.2.3", To := "v1.2.4", Changes := SourceChange })],
               Tags := ["v1.2.4"] }) := by decide

/-! ## Claim theorems -/

/-- C1: `CalculateNextVersion` with an empty preview identifier satisfies
the spec's version table for a module path without a major-version suffix:
no prior tag and no annotations gives "v1.0.0-preview"; no prior tag and a
release annotation gives "v1.0.0"; prior "v1.0.0" with no annotations gives
"v1.0.1"; prior "v1.0.1" with a feature annotation gives "v1.1.0"; prior
"v1.1.0-preview.1" with a feature annotation and configured "preview" track
gives "v1.1.0-preview.2"; prior "v1.1.0-rc.5" with a release annotation
gives "v1.1.0"; and the prior tag "1.1.0" without the leading "v" is an
error. -/
theorem calculateNextVersion_versionTable (modulePath : String)
    (h : SplitPathVersion modulePath = (modulePath, "", true)) :
    CalculateNextVersion modulePath "" {} [] "" = .ok "v1.0.0-preview" ∧
    CalculateNextVersion modulePath "" {} [{ Typ := ReleaseChangeType }] "" = .ok "v1.0.0" ∧
    CalculateNextVersion modulePath "v1.0.0" {} [] "" = .ok "v1.0.1" ∧
    CalculateNextVersion modulePath "v1.0.1" {} [{ Typ := FeatureChangeType }] "" =
      .ok "v1.1.0" ∧
    CalculateNextVersion modulePath "v1.1.0-preview.1" { PreRelease := "preview" }
      [{ Typ := FeatureChangeType }] "" = .ok "v1.1.0-preview.2" ∧
    CalculateNextVersion modulePath "v1.1.0-rc.5" {} [{ Typ := ReleaseChangeType }] "" =
      .ok "v1.1.0" ∧
    (CalculateNextVersion modulePath "1.1.0" {} [] "").isOk = false := by
  refine ⟨?_, ?_, ?_, ?_, ?_, ?_, ?_⟩ <;>
    · unfold CalculateNextVersion
      rw [h]
      dsimp only
      decide

/-- Witness for C1 at a concrete module path. -/
theorem calculateNextVersion_versionTable_witness :
    SplitPathVersion "github.com/aws/aws-sdk-go-v2/service/existing" =
      ("github.com/aws/aws-sdk-go-v2/service/existing", "", true) ∧
    CalculateNextVersion "github.com/aws/aws-sdk-go-v2/service/existing" "" {} [] "" =
      .ok "v1.0.0-preview" :=
  ⟨by decide,
   (calculateNextVersion_versionTable "github.com/aws/aws-sdk-go-v2/service/existing"
     (by decide)).1⟩

/-- C3 counterexample: with `"."` having the single registered sub-module
`"sub1"`, the input of the spec's filter example keeps `sub2/bar.go` (no
registered sub-module owns it), so the result is not the claimed
two-element list. -/
theorem filterModuleFiles_singleSub_counterexample :
    (FilterModuleFiles (.mk "." "." [] [.mk "sub1" "sub1" [] []])
        ["sub3/foo.go", "sub2/bar.go", "sub1/baz.go", "foo.go"]).1 =
      ["foo.go", "sub2/bar.go", "sub3/foo.go"] ∧
    ["foo.go", "sub2/bar.go", "sub3/foo.go"] ≠ ["foo.go", "sub3/foo.go"] := by
  decide

/-- C3 (amended): module `"."` with registered sub-modules `sub1` and
`sub2` filters the example change list to `["foo.go", "sub3/foo.go"]`; with
only `sub1` registered the result also keeps `sub2/bar.go`; and with zero
registered sub-modules all four files are returned sorted. -/
theorem filterModuleFiles_subFilter :
    (FilterModuleFiles (.mk "." "." [] [.mk "sub1" "sub1" [] [], .mk "sub2" "sub2" [] []])
        ["sub3/foo.go", "sub2/bar.go", "sub1/baz.go", "foo.go"]).1 =
      ["foo.go", "sub3/foo.go"] ∧
    (FilterModuleFiles (.mk "." "." [] [.mk "sub1" "sub1" [] []])
        ["sub3/foo.go", "sub2/bar.go", "sub1/baz.go", "foo.go"]).1 =
      ["foo.go", "sub2/bar.go", "sub3/foo.go"] ∧
    (FilterModuleFiles (.mk "." "." [] [])
        ["sub3/foo.go", "sub2/bar.go", "sub1/baz.go", "foo.go"]).1 =
      ["foo.go", "sub1/baz.go", "sub2/bar.go", "sub3/foo.go"] := by
  decide

/-- All ways to insert `x` into one position of a list. -/
def insertEverywhere (x : α) : List α → List (List α)
  | [] => [[x]]
  | y :: ys => (x :: y :: ys) :: (insertEverywhere x ys).map (y :: ·)

/-- All permutations of a list, by repeated insertion (structurally
recursive so that concrete enumerations compute). -/
def allPerms : List α → List (List α)
  | [] => [[]]
  | x :: xs => (allPerms xs).flatMap (insertEverywhere x)

theorem mem_insertEverywhere_self {α : Type} [DecidableEq α] (x : α) :
    ∀ (l : List α), x ∈ l → l ∈ insertEverywhere x (l.erase x) := by
  intro l
  induction l with
  | nil => intro h; cases h
  | cons y ys ih =>
    intro hx
    by_cases hxy : y = x
    · subst hxy
      rw [List.erase_cons_head]
      cases ys with
      | nil => simp [insertEverywhere]
      | cons z zs => simp [insertEverywhere]
    · have hx' : x ∈ ys := by
        rcases List.mem_cons.mp hx with h1 | h2
        · exact absurd h1.symm hxy
        · exact h2
      rw [List.erase_cons_tail (by simp [hxy])]
      simp only [insertEverywhere, List.mem_cons, List.mem_map]
      right
      exact ⟨ys, ih hx', rfl⟩

theorem mem_allPerms_of_perm {α : Type} [DecidableEq α] :
    ∀ {ps l : List α}, l.Perm ps → l ∈ allPerms ps := by
  intro ps
  induction ps with
  | nil => intro l h; simp [allPerms, h.eq_nil]
  | cons x xs ih =>
    intro l h
    have hx : x ∈ l ∧ xs.Perm (l.erase x) :=
      (List.cons_perm_iff_perm_erase).mp h.symm
    have h1 : l.erase x ∈ allPerms xs := ih hx.2.symm
    simp only [allPerms, List.mem_flatMap]
    exact ⟨l.erase x, h1, mem_insertEverywhere_self x l hx.1⟩

/-- The tree every insertion order of C4's five paths must produce. -/
def orderIndependentTree : ModuleTree :=
  { options := {},
    subModules := [ModuleTreeNode.mk "a" "a" []
        [ModuleTreeNode.mk "a/b" "a/b" [] [],
         ModuleTreeNode.mk "a/f/g" "a/f/g" [] []],
      ModuleTreeNode.mk "c" "c" [] [],
      ModuleTreeNode.mk "e/f/g" "e/f/g" [] []] }

set_option maxRecDepth 40000 in
/-- C4: inserting the five paths `a/f/g`, `a`, `a/b`, `c`, `e/f/g` in any
order (any permutation) succeeds and yields the same tree: top-level
siblings `a`, `c`, `e/f/g`, with `a` having exactly the children `a/b` and
`a/f/g`. -/
theorem moduleTree_insert_order_independent (perm : List String)
    (h : perm.Perm ["a/f/g", "a", "a/b", "c", "e/f/g"]) :
    runInsertPaths (NewModuleTree {}) perm = .ok orderIndependentTree := by
  have hall : ∀ p ∈ allPerms (["a/f/g", "a", "a/b", "c", "e/f/g"] : List String),
      runInsertPaths (NewModuleTree {}) p = .ok orderIndependentTree := by decide
  exact hall perm (mem_allPerms_of_perm h)

/-- Witness for C4 at one concrete insertion order. -/
theorem moduleTree_insert_order_independent_witness :
    (["a", "a/b", "a/f/g", "c", "e/f/g"] : List String).Perm
      ["a/f/g", "a", "a/b", "c", "e/f/g"] ∧
    runInsertPaths (NewModuleTree {}) ["a", "a/b", "a/f/g", "c", "e/f/g"] =
      .ok orderIndependentTree :=
  ⟨by decide,
   moduleTree_insert_order_independent ["a", "a/b", "a/f/g", "c", "e/f/g"] (by decide)⟩

/-- C5: with configured root `/foo/bar`, inserting `/other/place` — a path
not nested under the root — succeeds with relative path
`../../other/place` instead of returning the documented `OutsideRoot`
error (Go `filepath.Rel` only fails for mixed absolute/relative paths);
inserting an already present relative path does return the duplicate
error, and an ordinary insert returns the new node without error. -/
theorem moduleTree_insert_outsideRoot_noError :
    (NewModuleTree { RootPath := "/foo/bar" }).Insert "/other/place" [] =
      .ok (ModuleTreeNode.mk "/other/place" "../../other/place" [] [],
        { options := { RootPath := "/foo/bar" },
          subModules := [ModuleTreeNode.mk "/other/place" "../../other/place" [] []] }) ∧
    (match (NewModuleTree { RootPath := "/foo/bar" }).Insert "/foo/bar/a" [] with
      | .ok (_, t) => (t.Insert "/foo/bar/a" []).isOk
      | .error _ => true) = false := by
  decide

/-- The propagation scenario's module map after
`CalculateDependencyUpdates`. -/
def depModsAfter : List (String × RepoModule) :=
  [("example.com/a", depModA),
   ("example.com/b", { depModB with Changes := DependencyUpdate }),
   ("example.com/c", { depModC with Changes := DependencyUpdate })]

/-- C6: in the map where B requires A, C requires B, and only A is
source-changed, propagation succeeds; afterwards B and C carry the
dependency-updated flag, A's classification is exactly source-changed with
no dependency-updated bit, and every module's final flags still contain its
initial flags. -/
theorem calculateDependencyUpdates_propagation :
    CalculateDependencyUpdates depMods = .ok depModsAfter ∧
    lookupA depModsAfter "example.com/a" = some depModA ∧
    depModA.Changes = SourceChange ∧
    SourceChange &&& DependencyUpdate = 0 ∧
    (∃ mb, lookupA depModsAfter "example.com/b" = some mb ∧
      mb.Changes &&& DependencyUpdate = DependencyUpdate) ∧
    (∃ mc, lookupA depModsAfter "example.com/c" = some mc ∧
      mc.Changes &&& DependencyUpdate = DependencyUpdate) ∧
    DependencyUpdate ≠ 0 ∧
    (∀ p ∈ ["example.com/a", "example.com/b", "example.com/c"],
      ((lookupA depMods p).all fun m0 =>
        (lookupA depModsAfter p).all fun m1 =>
          m0.Changes &&& m1.Changes == m0.Changes) = true) := by
  refine ⟨by decide, by decide, by decide, by decide,
    ⟨{ depModB with Changes := DependencyUpdate }, by decide, by decide⟩,
    ⟨{ depModC with Changes := DependencyUpdate }, by decide, by decide⟩,
    by decide, by decide⟩

/-- C10: `FilterModuleFiles` and `IsModuleChanged` return a nil error for
every module node and every file list — their error results are vacuous. -/
theorem filterModuleFiles_never_fails :
    ∀ (module : ModuleTreeNode) (files : List String),
      (FilterModuleFiles module files).2 = none ∧
      (IsModuleChanged module files).2 = none := by
  intro module files
  exact ⟨rfl, rfl⟩

theorem strEqEmptyOfLength {s : String} (h : s.length = 0) : s = "" := by
  cases s with
  | mk data =>
    cases data with
    | nil => rfl
    | cons c cs => simp [String.length] at h

/-- C2: for every module path, non-empty prior version, configuration,
annotation list, and preview identifier, a next version returned by
`CalculateNextVersion` without error compares strictly greater than the
prior version under the semantic-version ordering; and whenever the
computed candidate does not compare strictly greater, the function returns
an error instead of a version. -/
theorem calculateNextVersion_increasing (modulePath latest : String)
    (config : ModuleConfig) (annots : List ChangeAnnot)
    (preReleaseIdentifier : String) (hl : latest ≠ "") :
    (∀ next,
      CalculateNextVersion modulePath latest config annots preReleaseIdentifier =
        .ok next → 0 < semverCompare next latest) ∧
    (∀ cand,
      (if preReleaseIdentifier.length > 0 then
        calculatePreReleaseVersion (semverParse (Canonical latest)).1
          (GetVersionIncrement annots) preReleaseIdentifier
       else
        calculateNextVersion (semverParse (Canonical latest)).1
          (GetVersionIncrement annots) config) = .ok cand →
      semverCompare cand latest ≤ 0 →
      ∃ e, CalculateNextVersion modulePath latest config annots preReleaseIdentifier =
        .error e) := by
  constructor
  · intro next hok
    simp only [CalculateNextVersion] at hok
    split at hok
    · exact absurd hok (by simp)
    · split at hok
      · rename_i hlen
        exact absurd (strEqEmptyOfLength hlen) hl
      · split at hok
        · exact absurd hok (by simp)
        · split at hok
          · exact absurd hok (by simp)
          · split at hok
            · exact absurd hok (by simp)
            · rename_i next' hne hcmp
              cases hok
              omega
  · intro cand hcand hle
    simp only [CalculateNextVersion]
    split
    · exact ⟨_, rfl⟩
    · split
      · rename_i hlen
        exact absurd (strEqEmptyOfLength hlen) hl
      · split
        · exact ⟨_, rfl⟩
        · rw [hcand]
          simp only
          rw [if_pos hle]
          exact ⟨_, rfl⟩

/-- Witness for C2 at a concrete input. -/
theorem calculateNextVersion_increasing_witness :
    ("v1.0.0" : String) ≠ "" ∧ (0 : Int) < semverCompare "v1.0.1" "v1.0.0" :=
  ⟨by decide,
   (calculateNextVersion_increasing "example.com/mod" "v1.0.0" {} [] ""
     (by decide)).1 "v1.0.1" (by decide)⟩

theorem natOrNeZero {a : Nat} (b : Nat) (h : a ≠ 0) : a ||| b ≠ 0 := by
  intro hq
  obtain ⟨i, hi⟩ := Nat.ne_zero_implies_bit_true h
  have hbit : (a ||| b).testBit i = true := by simp [Nat.testBit_or, hi]
  rw [hq] at hbit
  simp at hbit

theorem natOrOrSelf (a b : Nat) : (a ||| b) ||| b = a ||| b := by
  rw [Nat.lor_assoc, Nat.or_self]

theorem lookupA_setA {β : Type} (l : List (String × β)) (k k' : String) (v : β) :
    lookupA (setA l k v) k' = if k' = k then some v else lookupA l k' := by
  induction l with
  | nil =>
    by_cases h : k' = k
    · simp [setA, lookupA, h]
    · have h2 : ¬k = k' := fun hk => h hk.symm
      simp [setA, lookupA, h, h2]
  | cons kv rest ih =>
    obtain ⟨a, w⟩ := kv
    by_cases ha : a = k
    · subst ha
      simp only [setA, if_pos rfl]
      by_cases h : k' = a
      · subst h
        simp [lookupA]
      · have h2 : ¬a = k' := fun hk => h hk.symm
        simp [lookupA, h, h2]
    · simp only [setA, if_neg ha]
      simp only [lookupA]
      by_cases hak : a = k'
      · have hk : ¬k' = k := by
          intro hkk
          exact ha (hak.trans hkk)
        simp [hak, hk]
      · simp [hak, ih]

theorem mem_appendIfNotPresent {l : List String} (s x : String) (h : x ∈ l) :
    x ∈ AppendIfNotPresent l s := by
  unfold AppendIfNotPresent
  split
  · exact h
  · exact List.mem_append_left _ h

theorem lookupA_mem_keys {β : Type} {g : List (String × β)} {p : String} {v : β}
    (h : lookupA g p = some v) : p ∈ g.map Prod.fst := by
  induction g with
  | nil => simp [lookupA] at h
  | cons kv rest ih =>
    obtain ⟨a, w⟩ := kv
    by_cases ha : a = p
    · subst ha; simp
    · simp only [lookupA, if_neg ha] at h
      simp [ih h]

theorem markDependents_lookup (graph : List (String × List String)) :
    ∀ (deps : List String) (modules : List (String × RepoModule))
      (toVisit : List String) (p : String) (m : RepoModule),
      lookupA modules p = some m →
      ∃ m', lookupA (markDependents graph deps modules toVisit).1 p = some m' ∧
        m'.ModuleConfig = m.ModuleConfig ∧
        (m'.Changes = m.Changes ∨ m'.Changes = m.Changes ||| DependencyUpdate) := by
  intro deps
  induction deps with
  | nil =>
    intro modules toVisit p m h
    exact ⟨m, h, rfl, Or.inl rfl⟩
  | cons dependent rest ih =>
    intro modules toVisit p m h
    cases hd : lookupA modules dependent with
    | none =>
      simp only [markDependents, hd]
      exact ih modules toVisit p m h
    | some dm =>
      by_cases hflag : dm.Changes &&& DependencyUpdate ≠ 0
      · simp only [markDependents, hd, if_pos hflag]
        exact ih modules toVisit p m h
      · simp only [markDependents, hd, if_neg hflag]
        by_cases hp : dependent = p
        · subst hp
          have hdm : dm = m := by
            rw [h] at hd
            injection hd with q
            exact q.symm
          subst hdm
          have hl2 : lookupA
              (setA modules dependent { dm with Changes := dm.Changes ||| DependencyUpdate })
              dependent = some { dm with Changes := dm.Changes ||| DependencyUpdate } := by
            rw [lookupA_setA]
            simp
          obtain ⟨m2, h2, hcfg, hor⟩ := ih _ _ dependent _ hl2
          refine ⟨m2, h2, hcfg, Or.inr ?_⟩
          rcases hor with h3 | h3
          · exact h3
          · rw [h3]
            exact natOrOrSelf _ _
        · have hl2 : lookupA
              (setA modules dependent { dm with Changes := dm.Changes ||| DependencyUpdate })
              p = some m := by
            rw [lookupA_setA]
            rw [if_neg (fun hpq => hp hpq.symm)]
            exact h
          exact ih _ _ p m hl2

theorem markDependents_mem (graph : List (String × List String)) :
    ∀ (deps : List String) (modules : List (String × RepoModule))
      (toVisit : List String) (p : String), p ∈ toVisit →
      p ∈ (markDependents graph deps modules toVisit).2 := by
  intro deps
  induction deps with
  | nil => intro modules toVisit p h; exact h
  | cons dependent rest ih =>
    intro modules toVisit p h
    cases hd : lookupA modules dependent with
    | none =>
      simp only [markDependents, hd]
      exact ih modules toVisit p h
    | some dm =>
      by_cases hflag : dm.Changes &&& DependencyUpdate ≠ 0
      · simp only [markDependents, hd, if_pos hflag]
        exact ih modules toVisit p h
      · by_cases hg : (lookupA graph dependent).isSome = true
        · simp only [markDependents, hd, if_neg hflag, if_pos hg]
          exact ih _ _ p (mem_appendIfNotPresent dependent p h)
        · simp only [markDependents, hd, if_neg hflag, if_neg hg]
          exact ih _ _ p h

theorem depLoop_noTag_error (graph : List (String × List String)) :
    ∀ (fuel : Nat) (modules : List (String × RepoModule)) (toVisit : List String)
      (p : String) (m : RepoModule),
      p ∈ toVisit → lookupA modules p = some m → m.Changes ≠ 0 →
      m.ModuleConfig.NoTag = true → (lookupA graph p).getD [] ≠ [] →
      ∃ e, depLoop graph fuel modules toVisit = .error e := by
  intro fuel
  induction fuel with
  | zero =>
    intro modules toVisit p m hp hl hc hn hd
    cases toVisit with
    | nil => cases hp
    | cons c rest => exact ⟨_, rfl⟩
  | succ fuel ih =>
    intro modules toVisit p m hp hl hc hn hd
    cases toVisit with
    | nil => cases hp
    | cons current rest =>
      by_cases hcp : current = p
      · subst hcp
        simp only [depLoop, hl, if_neg hc]
        rw [if_pos ⟨hn, List.length_pos.mpr hd⟩]
        exact ⟨_, rfl⟩
      · have hp' : p ∈ rest := by
          rcases List.mem_cons.mp hp with h1 | h2
          · exact absurd h1.symm hcp
          · exact h2
        cases hcur : lookupA modules current with
        | none =>
          simp only [depLoop, hcur]
          exact ih modules rest p m hp' hl hc hn hd
        | some mc =>
          by_cases hc0 : mc.Changes = 0
          · simp only [depLoop, hcur, if_pos hc0]
            exact ih modules rest p m hp' hl hc hn hd
          · simp only [depLoop, hcur, if_neg hc0]
            by_cases hnt : mc.ModuleConfig.NoTag = true ∧
                0 < ((lookupA graph current).getD []).length
            · rw [if_pos hnt]
              exact ⟨_, rfl⟩
            · rw [if_neg hnt]
              by_cases hnt2 : mc.ModuleConfig.NoTag = true
              · rw [if_pos hnt2]
                exact ih modules rest p m hp' hl hc hn hd
              · rw [if_neg hnt2]
                obtain ⟨m', hl', hcfg, hor⟩ :=
                  markDependents_lookup graph ((lookupA graph current).getD [])
                    modules rest p m hl
                have hp2 := markDependents_mem graph ((lookupA graph current).getD [])
                  modules rest p hp'
                refine ih _ _ p m' hp2 hl' ?_ ?_ hd
                · rcases hor with h3 | h3
                  · rw [h3]; exact hc
                  · rw [h3]; exact natOrNeZero _ hc
                · rw [hcfg]; exact hn

/-- C8: during `CalculateDependencyUpdates`, a module with a non-zero change
classification that is configured no-tag and has at least one in-repo
dependent makes the function return an error; and popping a no-tag module
with no change classification, or a no-tag changed module with zero
dependents, just continues the worklist loop with nothing propagated and no
error contributed. -/
theorem calculateDependencyUpdates_noTag :
    (∀ (modules : List (String × RepoModule)) (p : String) (m : RepoModule),
      lookupA modules p = some m → m.Changes ≠ 0 → m.ModuleConfig.NoTag = true →
      (lookupA (buildInverseDependencyGraph modules) p).getD [] ≠ [] →
      ∃ e, CalculateDependencyUpdates modules = .error e) ∧
    (∀ (graph : List (String × List String)) (fuel : Nat)
      (modules : List (String × RepoModule)) (rest : List String)
      (p : String) (m : RepoModule),
      lookupA modules p = some m → m.Changes = 0 →
      depLoop graph (fuel + 1) modules (p :: rest) = depLoop graph fuel modules rest) ∧
    (∀ (graph : List (String × List String)) (fuel : Nat)
      (modules : List (String × RepoModule)) (rest : List String)
      (p : String) (m : RepoModule),
      lookupA modules p = some m → m.Changes ≠ 0 → m.ModuleConfig.NoTag = true →
      (lookupA graph p).getD [] = [] →
      depLoop graph (fuel + 1) modules (p :: rest) = depLoop graph fuel modules rest) := by
  refine ⟨?_, ?_, ?_⟩
  · intro modules p m hl hc hn hd
    have hsome : ∃ deps, lookupA (buildInverseDependencyGraph modules) p = some deps := by
      cases hq : lookupA (buildInverseDependencyGraph modules) p with
      | none => rw [hq] at hd; simp at hd
      | some deps => exact ⟨deps, rfl⟩
    obtain ⟨deps, hdeps⟩ := hsome
    have hkey : p ∈ (buildInverseDependencyGraph modules).map Prod.fst :=
      lookupA_mem_keys hdeps
    have hmem : p ∈ sortStrings ((buildInverseDependencyGraph modules).map Prod.fst) := by
      unfold sortStrings
      exact ((List.perm_insertionSort strLeR _).mem_iff).mpr hkey
    simp only [CalculateDependencyUpdates]
    exact depLoop_noTag_error (buildInverseDependencyGraph modules) _ modules
      (sortStrings ((buildInverseDependencyGraph modules).map Prod.fst)) p m
      hmem hl hc hn hd
  · intro graph fuel modules rest p m hl hc0
    simp only [depLoop, hl, if_pos hc0]
  · intro graph fuel modules rest p m hl hc hn hdeps
    have hlen : ¬(m.ModuleConfig.NoTag = true ∧
        0 < ((lookupA graph p).getD []).length) := by
      intro hpair
      rw [hdeps] at hpair
      simp at hpair
    simp only [depLoop, hl, if_neg hc, if_neg hlen, if_pos hn]

/-- No-tag module with a source change and one dependent (witness data). -/
def noTagModX : RepoModule :=
  { RelativeRepoPath := "x", Latest := "v1.0.0", Changes := SourceChange,
    ModuleConfig := { NoTag := true } }

/-- Unchanged module requiring the no-tag module (witness data). -/
def noTagModY : RepoModule :=
  { RelativeRepoPath := "y", Latest := "v1.0.0",
    File := { Require := ["example.com/x"] } }

/-- Witness module map for C8. -/
def noTagMods : List (String × RepoModule) :=
  [("example.com/x", noTagModX), ("example.com/y", noTagModY)]

/-- Witness for C8 at a concrete module map. -/
theorem calculateDependencyUpdates_noTag_witness :
    (∃ e, CalculateDependencyUpdates noTagMods = .error e) ∧
    depLoop [] 1 noTagMods ["example.com/y"] = depLoop [] 0 noTagMods [] :=
  ⟨calculateDependencyUpdates_noTag.1 noTagMods "example.com/x" noTagModX
      (by decide) (by decide) (by decide) (by decide),
   calculateDependencyUpdates_noTag.2.1 [] 0 noTagMods [] "example.com/y" noTagModY
      (by decide) (by decide)⟩

theorem buildModulesLoop_lookup (preRelease : String) (verbose : Bool) :
    ∀ (rest : List (String × RepoModule)) (acc : List (String × ModuleManifest))
      (tags : List String) (res : List (String × ModuleManifest) × List String),
      buildModulesLoop preRelease verbose rest acc tags = .ok res →
      ∀ k mm, lookupA res.1 k = some mm →
        lookupA acc k = some mm ∨
        ∃ mp m, (mp, m) ∈ rest ∧ m.RelativeRepoPath = k ∧
          ¬(m.Changes = 0 ∨ m.ModuleConfig.NoTag = true) ∧
          CalculateNextVersion mp m.Latest m.ModuleConfig m.ChangeAnnots preRelease =
            .ok mm.To := by
  intro rest
  induction rest with
  | nil =>
    intro acc tags res h k mm hmm
    simp only [buildModulesLoop] at h
    cases h
    exact Or.inl hmm
  | cons kv rest ih =>
    obtain ⟨mp, m⟩ := kv
    intro acc tags res h k mm hmm
    by_cases hskip : m.Changes = 0 ∨ m.ModuleConfig.NoTag = true
    · simp only [buildModulesLoop, if_pos hskip] at h
      rcases ih acc tags res h k mm hmm with h1 | ⟨mp', m', hmem, hrel, hcond, hcalc⟩
      · exact Or.inl h1
      · exact Or.inr ⟨mp', m', List.mem_cons_of_mem _ hmem, hrel, hcond, hcalc⟩
    · simp only [buildModulesLoop, if_neg hskip] at h
      cases hcv : CalculateNextVersion mp m.Latest m.ModuleConfig m.ChangeAnnots preRelease with
      | error e =>
        simp only [hcv] at h
        exact absurd h (by simp)
      | ok nextVersion =>
        simp only [hcv] at h
        cases htag : ToModuleTag m.RelativeRepoPath nextVersion with
        | error e =>
          simp only [htag] at h
          exact absurd h (by simp)
        | ok moduleTag =>
          simp only [htag] at h
          rcases ih _ _ res h k mm hmm with h1 | ⟨mp', m', hmem, hrel, hcond, hcalc⟩
          · rw [lookupA_setA] at h1
            by_cases hk : k = m.RelativeRepoPath
            · rw [if_pos hk] at h1
              injection h1 with hmm2
              refine Or.inr ⟨mp, m, List.mem_cons_self _ _, hk.symm, hskip, ?_⟩
              rw [← hmm2]
              exact hcv
            · rw [if_neg hk] at h1
              exact Or.inl h1
          · exact Or.inr ⟨mp', m', List.mem_cons_of_mem _ hmem, hrel, hcond, hcalc⟩

/-- C9 (amended): when `BuildReleaseManifest` succeeds, a tree holding
exactly one module gives a manifest with the with-release-tag flag false
whose identifier is the recorded next version of a changed, non-exempt
module at the root path (computed by `CalculateNextVersion`) when such an
entry exists, and otherwise the latest version of the module found at that
path; a tree with two or more modules keeps the flag true and the supplied
identifier. -/
theorem buildReleaseManifest_single_multi (moduleTree : ModuleTree) (id : String)
    (modules : List (String × RepoModule)) (verbose : Bool) (preRelease : String)
    (rm : Manifest)
    (h : BuildReleaseManifest moduleTree id modules verbose preRelease = .ok rm) :
    (∀ n, moduleTree.ListNodes = [n] →
      rm.WithReleaseTag = false ∧
      ((∃ mm, lookupA rm.Modules n.Path = some mm ∧ rm.ID = mm.To ∧
        ∃ mp m, (mp, m) ∈ modules ∧ m.RelativeRepoPath = n.Path ∧
          ¬(m.Changes = 0 ∨ m.ModuleConfig.NoTag = true) ∧
          CalculateNextVersion mp m.Latest m.ModuleConfig m.ChangeAnnots preRelease =
            .ok rm.ID) ∨
       (lookupA rm.Modules n.Path = none ∧
        ∃ m, FindModuleViaRelativeRepoPath modules n.Path = some m ∧
          rm.ID = m.Latest))) ∧
    (2 ≤ moduleTree.ListNodes.length → rm.WithReleaseTag = true ∧ rm.ID = id) := by
  simp only [BuildReleaseManifest] at h
  cases hloop : buildModulesLoop preRelease verbose modules [] [] with
  | error e =>
    simp only [hloop] at h
    exact absurd h (by simp)
  | ok pair =>
    obtain ⟨mms, tags⟩ := pair
    simp only [hloop] at h
    constructor
    · intro n hlist
      rw [hlist] at h
      cases hfind : lookupA mms n.Path with
      | some mm =>
        simp only [hfind] at h
        injection h with hrm
        subst hrm
        refine ⟨rfl, Or.inl ⟨mm, hfind, rfl, ?_⟩⟩
        rcases buildModulesLoop_lookup preRelease verbose modules [] [] (mms, tags)
            hloop n.Path mm hfind with h1 | ⟨mp, m, hmem, hrel, hcond, hcalc⟩
        · simp [lookupA] at h1
        · exact ⟨mp, m, hmem, hrel, hcond, hcalc⟩
      | none =>
        simp only [hfind] at h
        cases hroot : FindModuleViaRelativeRepoPath modules n.Path with
        | none =>
          simp only [hroot] at h
          exact absurd h (by simp)
        | some rootRepoModule =>
          simp only [hroot] at h
          injection h with hrm
          subst hrm
          exact ⟨rfl, Or.inr ⟨hfind, rootRepoModule, rfl, rfl⟩⟩
    · intro hlen
      cases hlist : moduleTree.ListNodes with
      | nil => rw [hlist] at hlen; simp at hlen
      | cons n1 rest =>
        cases rest with
        | nil => rw [hlist] at hlen; simp at hlen
        | cons n2 rest2 =>
          rw [hlist] at h
          injection h with hrm
          subst hrm
          exact ⟨rfl, rfl⟩

/-- No-tag but source-changed root module (C9 counterexample data). -/
def noTagRootModule : RepoModule :=
  { RelativeRepoPath := ".", Latest := "v1.0.0", Changes := SourceChange,
    ModuleConfig := { NoTag := true } }

/-- A tree holding exactly the root module. -/
def singleRootTree : ModuleTree :=
  { options := {}, subModules := [ModuleTreeNode.mk "." "." [] []] }

/-- C9 counterexample: a single-module repository whose only module is
changed but configured no-tag yields a successful manifest whose identifier
is the module's latest version, not its computed next version, so the claim
as stated fails while the module is not unchanged. -/
theorem buildReleaseManifest_singleModule_counterexample :
    (BuildReleaseManifest singleRootTree "2021-10-27"
        [("example.com/root", noTagRootModule)] false "").map
      (fun rm => (rm.ID, rm.WithReleaseTag)) = .ok ("v1.0.0", false) ∧
    noTagRootModule.Changes ≠ 0 ∧
    CalculateNextVersion "example.com/root" "v1.0.0" noTagRootModule.ModuleConfig [] "" =
      .ok "v1.0.1" ∧
    ("v1.0.0" : String) ≠ "v1.0.1" := by decide

/-- The two-module tree of the manifest test data. -/
def multiTree : ModuleTree :=
  { options := {},
    subModules := [ModuleTreeNode.mk "." "." [] [ModuleTreeNode.mk "config" "config" [] []]] }

/-- The two-module map of the manifest test data. -/
def multiModules : List (String × RepoModule) :=
  [("github.com/aws/aws-sdk-go-v2", sdkRootModule),
   ("github.com/aws/aws-sdk-go-v2/config", configModule)]

/-- The manifest the two-module test data produces. -/
def multiManifestExpected : Manifest :=
  { ID := "2021-10-27", WithReleaseTag := true,
    Modules := [("config",
      { ModulePath := "github.com/aws/aws-sdk-go-v2/config",
        From := "v1.0.0", To := "v1.0.1", Changes := SourceChange })],
    Tags := ["config/v1.0.1"] }

/-- Witness for C9's theorem at the concrete two-module repository. -/
theorem buildReleaseManifest_single_multi_witness :
    multiManifestExpected.WithReleaseTag = true ∧ multiManifestExpected.ID = "2021-10-27" :=
  (buildReleaseManifest_single_multi multiTree "2021-10-27" multiModules false ""
    multiManifestExpected (by decide)).2 (by decide)

theorem charListLt_asymm : ∀ (a b : List Char),
    charListLt a b = true → charListLt b a = false := by
  intro a
  induction a with
  | nil =>
    intro b h
    cases b with
    | nil => simp [charListLt] at h
    | cons y ys => simp [charListLt]
  | cons x xs ih =>
    intro b h
    cases b with
    | nil => simp [charListLt] at h
    | cons y ys =>
      by_cases hxy : x < y
      · have hyx : ¬y < x := lt_asymm hxy
        have hne : ¬y = x := fun hq => absurd hxy (by rw [hq]; exact lt_irrefl x)
        simp [charListLt, hyx, hne]
      · by_cases heq : x = y
        · subst heq
          simp only [charListLt, if_neg (lt_irrefl x), if_pos rfl] at h ⊢
          exact ih ys h
        · simp [charListLt, hxy, heq] at h

theorem charListLt_trans : ∀ (a b c : List Char),
    charListLt a b = true → charListLt b c = true → charListLt a c = true := by
  intro a
  induction a with
  | nil =>
    intro b c hab hbc
    cases b with
    | nil => simp [charListLt] at hab
    | cons y ys =>
      cases c with
      | nil => simp [charListLt] at hbc
      | cons z zs => simp [charListLt]
  | cons x xs ih =>
    intro b c hab hbc
    cases b with
    | nil => simp [charListLt] at hab
    | cons y ys =>
      cases c with
      | nil => simp [charListLt] at hbc
      | cons z zs =>
        by_cases hxy : x < y
        · by_cases hyz : y < z
          · simp [charListLt, lt_trans hxy hyz]
          · by_cases hyz2 : y = z
            · subst hyz2; simp [charListLt, hxy]
            · simp [charListLt, hyz, hyz2] at hbc
        · by_cases hxy2 : x = y
          · subst hxy2
            simp only [charListLt, if_neg (lt_irrefl x), if_pos rfl] at hab
            by_cases hyz : x < z
            · simp [charListLt, hyz]
            · by_cases hyz2 : x = z
              · subst hyz2
                simp only [charListLt, if_neg (lt_irrefl x), if_pos rfl] at hbc ⊢
                exact ih ys zs hab hbc
              · simp [charListLt, hyz, hyz2] at hbc
          · simp [charListLt, hxy, hxy2] at hab

theorem charListLt_connex : ∀ (a b : List Char), a ≠ b →
    charListLt a b = true ∨ charListLt b a = true := by
  intro a
  induction a with
  | nil =>
    intro b h
    cases b with
    | nil => exact absurd rfl h
    | cons y ys => left; simp [charListLt]
  | cons x xs ih =>
    intro b h
    cases b with
    | nil => right; simp [charListLt]
    | cons y ys =>
      rcases lt_trichotomy x y with hxy | hxy | hxy
      · left; simp [charListLt, hxy]
      · subst hxy
        have hne : xs ≠ ys := fun hq => h (by rw [hq])
        rcases ih ys hne with h1 | h1
        · left
          simp only [charListLt, if_neg (lt_irrefl x), if_pos rfl]
          exact h1
        · right
          simp only [charListLt, if_neg (lt_irrefl x), if_pos rfl]
          exact h1
      · right; simp [charListLt, hxy]

theorem strDataNe {a b : String} (h : a ≠ b) : a.data ≠ b.data := by
  intro hd
  apply h
  cases a with
  | mk da =>
    cases b with
    | mk db => simp only at hd; rw [hd]

instance : IsTotal ModuleTreeNode nodeLeR :=
  ⟨fun a b => by
    unfold nodeLeR strLe
    by_cases h : strLt b.Path a.Path = true
    · right
      unfold strLt at h ⊢
      rw [charListLt_asymm _ _ h]
      rfl
    · left
      rw [Bool.not_eq_true] at h
      rw [h]
      rfl⟩

instance : IsTrans ModuleTreeNode nodeLeR :=
  ⟨fun a b c hab hbc => by
    unfold nodeLeR strLe at *
    rw [Bool.not_eq_true'] at hab hbc ⊢
    by_cases heq : b.Path = c.Path
    · rw [← heq]; exact hab
    · rcases charListLt_connex b.Path.data c.Path.data (strDataNe heq) with h1 | h1
      · by_cases hca : strLt c.Path a.Path = true
        · have hba : charListLt b.Path.data a.Path.data = true :=
            charListLt_trans _ _ _ h1 hca
          rw [show strLt b.Path a.Path = charListLt b.Path.data a.Path.data from rfl] at hab
          rw [hba] at hab
          cases hab
        · rw [Bool.not_eq_true] at hca
          exact hca
      · rw [show strLt c.Path b.Path = charListLt c.Path.data b.Path.data from rfl] at hbc
        rw [h1] at hbc
        cases hbc⟩

/-- Two nodes neither of which is an ancestor of the other (the sibling
condition of the tree invariant). -/
def nodesUnrelated (a b : ModuleTreeNode) : Prop :=
  a.AncestorOf b.Path = false ∧ b.AncestorOf a.Path = false

theorem nodesUnrelated_symm : ∀ {a b : ModuleTreeNode},
    nodesUnrelated a b → nodesUnrelated b a := fun h => ⟨h.2, h.1⟩

theorem pathAncOf_refl (p : String) : pathAncOf p p = true := by
  simp [pathAncOf]

theorem nodesUnrelated_path_ne {a b : ModuleTreeNode} (h : nodesUnrelated a b) :
    a.Path ≠ b.Path := by
  intro heq
  have := h.1
  unfold ModuleTreeNode.AncestorOf at this
  rw [heq, pathAncOf_refl] at this
  cases this

/-- Sibling-layer invariant: strictly ascending by relative path and
pairwise unrelated. -/
def LayerNodesOK (nodes : List ModuleTreeNode) : Prop :=
  nodes.Pairwise (fun a b => strLt a.Path b.Path = true ∧ nodesUnrelated a b)

theorem layer_from_sorted_sym {l : List ModuleTreeNode}
    (hs : l.Pairwise nodeLeR) (hsym : l.Pairwise nodesUnrelated) :
    LayerNodesOK l := by
  have hand := hs.and hsym
  refine hand.imp ?_
  intro a b hab
  obtain ⟨hle, hun⟩ := hab
  refine ⟨?_, hun⟩
  unfold nodeLeR strLe at hle
  rw [Bool.not_eq_true'] at hle
  rcases charListLt_connex a.Path.data b.Path.data
      (strDataNe (nodesUnrelated_path_ne hun)) with h1 | h1
  · exact h1
  · rw [show strLt b.Path a.Path = charListLt b.Path.data a.Path.data from rfl] at hle
    rw [h1] at hle
    cases hle

theorem sortNodes_perm (l : List ModuleTreeNode) : List.Perm (sortNodes l) l :=
  List.perm_insertionSort nodeLeR l

theorem sortNodes_sorted (l : List ModuleTreeNode) :
    (sortNodes l).Pairwise nodeLeR :=
  List.sorted_insertionSort nodeLeR l

/-- Full tree invariant: every sibling layer satisfies `LayerNodesOK` and the
children of every node do so recursively. -/
def TreeNodesInv (nodes : List ModuleTreeNode) : Prop :=
  LayerNodesOK nodes ∧ ∀ n ∈ nodes, TreeNodesInv n.subModules
termination_by nodeListWeight nodes
decreasing_by
  exact lt_of_lt_of_le (nodeListWeight_subModules_lt _)
    (nodeWeight_le_of_mem (by assumption))

theorem treeNodesInv_iff (nodes : List ModuleTreeNode) :
    TreeNodesInv nodes ↔
      LayerNodesOK nodes ∧ ∀ n ∈ nodes, TreeNodesInv n.subModules := by
  rw [TreeNodesInv]

theorem treeNodesInv_nil : TreeNodesInv [] := by
  rw [treeNodesInv_iff]
  exact ⟨List.Pairwise.nil, by simp⟩

theorem withSubs_Path (n : ModuleTreeNode) (s : List ModuleTreeNode) :
    (n.withSubs s).Path = n.Path := by
  cases n with
  | mk a r t sub => rfl

theorem withSubs_subModules (n : ModuleTreeNode) (s : List ModuleTreeNode) :
    (n.withSubs s).subModules = s := by
  cases n with
  | mk a r t sub => rfl

theorem nodesUnrelated_symmRel : Symmetric nodesUnrelated :=
  fun _ _ h => ⟨h.2, h.1⟩

theorem treeNodesInv_sort {l : List ModuleTreeNode}
    (hsym : l.Pairwise nodesUnrelated)
    (hmem : ∀ n ∈ l, TreeNodesInv n.subModules) :
    TreeNodesInv (sortNodes l) := by
  rw [treeNodesInv_iff]
  constructor
  · apply layer_from_sorted_sym (sortNodes_sorted l)
    exact ((sortNodes_perm l).pairwise_iff (fun h => nodesUnrelated_symmRel h)).mpr hsym
  · intro n hn
    exact hmem n ((sortNodes_perm l).mem_iff.mp hn)

theorem layerRel_congr {a a' b b' : ModuleTreeNode}
    (ha : a'.Path = a.Path) (hb : b'.Path = b.Path)
    (h : strLt a.Path b.Path = true ∧ nodesUnrelated a b) :
    strLt a'.Path b'.Path = true ∧ nodesUnrelated a' b' := by
  unfold nodesUnrelated ModuleTreeNode.AncestorOf at *
  rw [ha, hb]
  exact h

theorem layerOK_replace {pre post : List ModuleTreeNode} {m m' : ModuleTreeNode}
    (hPath : m'.Path = m.Path)
    (h : LayerNodesOK (pre ++ m :: post)) :
    LayerNodesOK (pre ++ m' :: post) := by
  unfold LayerNodesOK at h ⊢
  rw [List.pairwise_append] at h ⊢
  obtain ⟨h1, h2, h3⟩ := h
  rw [List.pairwise_cons] at h2 ⊢
  obtain ⟨h2a, h2b⟩ := h2
  refine ⟨h1, ⟨?_, h2b⟩, ?_⟩
  · intro b hbm
    exact layerRel_congr hPath rfl (h2a b hbm)
  · intro a ha b hbm
    rcases List.mem_cons.mp hbm with hb1 | hb2
    · subst hb1
      exact layerRel_congr rfl hPath (h3 a ha m (by simp))
    · exact h3 a ha b (by simp [hb2])

theorem insertLayerLoop_inv (newAbs newRel : String) (attrs : List String) :
    ∀ (fuel : Nat) (nodes : List ModuleTreeNode), TreeNodesInv nodes →
      TreeNodesInv (insertLayerLoop newAbs newRel attrs fuel nodes).1 := by
  intro fuel
  induction fuel with
  | zero => intro nodes h; exact h
  | succ fuel ih =>
    intro nodes h
    cases hb : breakAtAncestor newRel nodes with
    | some trip =>
      obtain ⟨pre, m, post⟩ := trip
      simp only [insertLayerLoop, hb]
      obtain ⟨hEq, hAnc, hPre⟩ := breakAtAncestor_eq_append hb
      rw [treeNodesInv_iff] at h
      rw [hEq] at h
      obtain ⟨hLayer, hMem⟩ := h
      rw [treeNodesInv_iff]
      constructor
      · exact layerOK_replace (withSubs_Path _ _) hLayer
      · intro n hn
        rcases List.mem_append.mp hn with hp | hq
        · exact hMem n (List.mem_append.mpr (Or.inl hp))
        · rcases List.mem_cons.mp hq with h1 | h2
          · rw [h1, withSubs_subModules]
            exact ih m.subModules (hMem m (by simp))
          · exact hMem n (by simp [h2])
    | none =>
      simp only [insertLayerLoop, hb]
      rw [treeNodesInv_iff] at h
      obtain ⟨hLayer, hMem⟩ := h
      have hnone := breakAtAncestor_none hb
      have hSymNodes : nodes.Pairwise nodesUnrelated :=
        hLayer.imp (fun hab => hab.2)
      have hKeptSub : List.Sublist (nodes.filter (fun x => !pathAncOf newRel x.Path)) nodes :=
        List.filter_sublist nodes
      have hMovedSub : List.Sublist (nodes.filter (fun x => pathAncOf newRel x.Path)) nodes :=
        List.filter_sublist nodes
      have hMovedInv : TreeNodesInv
          (sortNodes (nodes.filter (fun x => pathAncOf newRel x.Path))) := by
        apply treeNodesInv_sort
        · exact List.Pairwise.sublist hMovedSub hSymNodes
        · intro n hn
          exact hMem n (hMovedSub.subset hn)
      apply treeNodesInv_sort
      · rw [List.pairwise_append]
        refine ⟨List.Pairwise.sublist hKeptSub hSymNodes, by simp, ?_⟩
        intro a ha b hbm
        rw [List.mem_singleton] at hbm
        subst hbm
        constructor
        · exact hnone a (hKeptSub.subset ha)
        · have hfa := List.of_mem_filter ha
          rw [Bool.not_eq_true'] at hfa
          exact hfa
      · intro n hn
        rcases List.mem_append.mp hn with h1 | h2
        · exact hMem n (hKeptSub.subset h1)
        · rw [List.mem_singleton] at h2
          rw [h2]
          exact hMovedInv

theorem moduleTreeInsert_inv {t : ModuleTree} {p : String} {attrs : List String}
    {n : ModuleTreeNode} {t' : ModuleTree}
    (h : t.Insert p attrs = .ok (n, t')) (hinv : TreeNodesInv t.subModules) :
    TreeNodesInv t'.subModules := by
  unfold ModuleTree.Insert at h
  cases hrel : (if t.options.RootPath ≠ "" then pathRel t.options.RootPath p
      else Except.ok p) with
  | error e =>
    simp only [hrel] at h
    exact absurd h (by simp)
  | ok rel =>
    simp only [hrel] at h
    cases hget : t.Get rel with
    | some m =>
      simp only [hget] at h
      exact absurd h (by simp)
    | none =>
      simp only [hget] at h
      injection h with h2
      injection h2 with hn ht'
      rw [← ht']
      exact insertLayerLoop_inv p rel attrs _ t.subModules hinv

theorem runInserts_inv : ∀ (ops : List (String × List String)) (t t' : ModuleTree),
    runInserts t ops = .ok t' → TreeNodesInv t.subModules →
    TreeNodesInv t'.subModules := by
  intro ops
  induction ops with
  | nil =>
    intro t t' h hinv
    unfold runInserts at h
    injection h with h1
    rw [← h1]
    exact hinv
  | cons op rest ih =>
    intro t t' h hinv
    obtain ⟨p, attrs⟩ := op
    unfold runInserts at h
    cases hins : t.Insert p attrs with
    | error e =>
      simp only [hins] at h
      exact absurd h (by simp)
    | ok pr =>
      obtain ⟨nd, t₂⟩ := pr
      simp only [hins] at h
      exact ih t₂ t' h (moduleTreeInsert_inv hins hinv)

theorem nodeListWeight_eq_zero {l : List ModuleTreeNode}
    (h : nodeListWeight l = 0) : l = [] := by
  cases l with
  | nil => rfl
  | cons n rest =>
    exfalso
    have h1 := nodeWeight_pos n
    simp only [nodeListWeight] at h
    omega

theorem iterRunF_fuel_irrel : ∀ (f₁ f₂ : Nat) (stack : List ModuleTreeNode),
    nodeListWeight stack ≤ f₁ → nodeListWeight stack ≤ f₂ →
    iterRunF f₁ stack = iterRunF f₂ stack := by
  intro f₁
  induction f₁ with
  | zero =>
    intro f₂ stack h1 h2
    rw [nodeListWeight_eq_zero (Nat.le_zero.mp h1)]
    cases f₂ <;> rfl
  | succ f ih =>
    intro f₂ stack h1 h2
    cases stack with
    | nil => cases f₂ <;> rfl
    | cons n rest =>
      cases f₂ with
      | zero =>
        exfalso
        have h3 := nodeWeight_pos n
        simp only [nodeListWeight] at h2
        omega
      | succ f₂ =>
        show n :: iterRunF f (n.subModules ++ rest) =
          n :: iterRunF f₂ (n.subModules ++ rest)
        congr 1
        have hlt := nodeListWeight_subModules_lt n
        simp only [nodeListWeight] at h1 h2
        apply ih
        · rw [nodeListWeight_append]; omega
        · rw [nodeListWeight_append]; omega

theorem iterRun_nil : iterRun [] = [] := rfl

theorem iterRun_cons (n : ModuleTreeNode) (rest : List ModuleTreeNode) :
    iterRun (n :: rest) = n :: iterRun (n.subModules ++ rest) := by
  have hge : 1 ≤ nodeListWeight (n :: rest) := by
    have h1 := nodeWeight_pos n
    simp only [nodeListWeight]
    omega
  obtain ⟨k, hk⟩ : ∃ k, nodeListWeight (n :: rest) = k + 1 :=
    ⟨nodeListWeight (n :: rest) - 1, by omega⟩
  rw [iterRun, hk]
  show n :: iterRunF k (n.subModules ++ rest) = n :: iterRun (n.subModules ++ rest)
  congr 1
  rw [iterRun]
  apply iterRunF_fuel_irrel
  · have hlt := nodeListWeight_subModules_lt n
    have hk2 : nodeWeight n + nodeListWeight rest = k + 1 := by
      rw [← hk]; rfl
    rw [nodeListWeight_append]
    omega
  · exact le_refl _

theorem dfsFlattenF_fuel_irrel : ∀ (f₁ f₂ : Nat) (nodes : List ModuleTreeNode),
    nodeListWeight nodes ≤ f₁ → nodeListWeight nodes ≤ f₂ →
    dfsFlattenF f₁ nodes = dfsFlattenF f₂ nodes := by
  intro f₁
  induction f₁ with
  | zero =>
    intro f₂ nodes h1 h2
    rw [nodeListWeight_eq_zero (Nat.le_zero.mp h1)]
    cases f₂ <;> rfl
  | succ f ih =>
    intro f₂ nodes h1 h2
    cases nodes with
    | nil => cases f₂ <;> rfl
    | cons n rest =>
      cases f₂ with
      | zero =>
        exfalso
        have h3 := nodeWeight_pos n
        simp only [nodeListWeight] at h2
        omega
      | succ f₂ =>
        show n :: (dfsFlattenF f n.subModules ++ dfsFlattenF f rest) =
          n :: (dfsFlattenF f₂ n.subModules ++ dfsFlattenF f₂ rest)
        have hlt := nodeListWeight_subModules_lt n
        have h3 := nodeWeight_pos n
        simp only [nodeListWeight] at h1 h2
        congr 1
        congr 1
        · apply ih <;> omega
        · apply ih <;> omega

theorem dfsFlatten_nil : dfsFlatten [] = [] := rfl

theorem dfsFlatten_cons (n : ModuleTreeNode) (rest : List ModuleTreeNode) :
    dfsFlatten (n :: rest) =
      n :: (dfsFlatten n.subModules ++ dfsFlatten rest) := by
  obtain ⟨k, hk⟩ : ∃ k, nodeListWeight (n :: rest) = k + 1 := by
    have h1 := nodeWeight_pos n
    exact ⟨nodeListWeight (n :: rest) - 1, by simp only [nodeListWeight]; omega⟩
  have hk2 : nodeWeight n + nodeListWeight rest = k + 1 := by
    rw [← hk]; rfl
  have hlt := nodeListWeight_subModules_lt n
  have hpos := nodeWeight_pos n
  rw [dfsFlatten, hk]
  show n :: (dfsFlattenF k n.subModules ++ dfsFlattenF k rest) =
    n :: (dfsFlatten n.subModules ++ dfsFlatten rest)
  congr 1
  congr 1
  · rw [dfsFlatten]
    apply dfsFlattenF_fuel_irrel
    · omega
    · exact le_refl _
  · rw [dfsFlatten]
    apply dfsFlattenF_fuel_irrel
    · omega
    · exact le_refl _

theorem iterRun_append_aux : ∀ (k : Nat) (xs ys : List ModuleTreeNode),
    nodeListWeight xs ≤ k →
    iterRun (xs ++ ys) = iterRun xs ++ iterRun ys := by
  intro k
  induction k with
  | zero =>
    intro xs ys h
    rw [nodeListWeight_eq_zero (Nat.le_zero.mp h)]
    simp [iterRun_nil]
  | succ k ih =>
    intro xs ys h
    cases xs with
    | nil => simp [iterRun_nil]
    | cons n xs =>
      rw [List.cons_append, iterRun_cons, iterRun_cons, List.cons_append]
      congr 1
      rw [← List.append_assoc]
      apply ih
      have h1 : nodeWeight n + nodeListWeight xs ≤ k + 1 := h
      have hlt := nodeListWeight_subModules_lt n
      rw [nodeListWeight_append]
      omega

theorem iterRun_append (xs ys : List ModuleTreeNode) :
    iterRun (xs ++ ys) = iterRun xs ++ iterRun ys :=
  iterRun_append_aux (nodeListWeight xs) xs ys (le_refl _)

theorem iterRun_eq_dfs_aux : ∀ (k : Nat) (nodes : List ModuleTreeNode),
    nodeListWeight nodes ≤ k → iterRun nodes = dfsFlatten nodes := by
  intro k
  induction k with
  | zero =>
    intro nodes h
    rw [nodeListWeight_eq_zero (Nat.le_zero.mp h)]
    rfl
  | succ k ih =>
    intro nodes h
    cases nodes with
    | nil => rfl
    | cons n rest =>
      rw [iterRun_cons, dfsFlatten_cons, iterRun_append]
      have h1 : nodeWeight n + nodeListWeight rest ≤ k + 1 := h
      have hlt := nodeListWeight_subModules_lt n
      have hpos := nodeWeight_pos n
      rw [ih n.subModules (by omega), ih rest (by omega)]

theorem iterRun_eq_dfsFlatten (nodes : List ModuleTreeNode) :
    iterRun nodes = dfsFlatten nodes :=
  iterRun_eq_dfs_aux (nodeListWeight nodes) nodes (le_refl _)

theorem flatMap_eq_dfs : ∀ (l : List ModuleTreeNode),
    l.flatMap (fun n => n :: n.ListNodes) = dfsFlatten l := by
  intro l
  induction l with
  | nil => rfl
  | cons n rest ih =>
    rw [List.flatMap_cons, dfsFlatten_cons, ih, List.cons_append]
    congr 2
    exact iterRun_eq_dfsFlatten n.subModules

theorem tree_ListNodes_eq_dfs (t : ModuleTree) :
    t.ListNodes = dfsFlatten t.subModules :=
  flatMap_eq_dfs t.subModules

theorem tree_iterateAll_eq_dfs (t : ModuleTree) :
    t.iterateAll = dfsFlatten t.subModules :=
  iterRun_eq_dfsFlatten t.subModules

/-- Concrete tree produced by inserting `b`, `a/c`, then `a` into an empty
tree (the last insert re-parents `a/c` under `a` and re-sorts the root
layer). -/
def invTreeW : ModuleTree :=
  ⟨⟨""⟩, [ModuleTreeNode.mk "a" "a" [] [ModuleTreeNode.mk "a/c" "a/c" [] []],
    ModuleTreeNode.mk "b" "b" [] []]⟩

/-- C7: after any sequence of successful `Insert` operations on a fresh
`ModuleTree`, every sibling layer of the resulting tree is strictly
ascending by relative path with no sibling a path-ancestor (equal path,
path `"."`, or `prefix + "/"` relation) of another — recursively at every
depth (`TreeNodesInv`) — and both `List` and iterating the tree's
`Iterator` to exhaustion visit the nodes depth-first, each layer in that
stored sorted order (`dfsFlatten`). -/
theorem moduleTree_insert_invariants (opts : ModuleTreeOptions)
    (ops : List (String × List String)) (t : ModuleTree)
    (h : runInserts (NewModuleTree opts) ops = Except.ok t) :
    TreeNodesInv t.subModules ∧
      t.ListNodes = dfsFlatten t.subModules ∧
      t.iterateAll = dfsFlatten t.subModules :=
  ⟨runInserts_inv ops (NewModuleTree opts) t h treeNodesInv_nil,
    tree_ListNodes_eq_dfs t, tree_iterateAll_eq_dfs t⟩

theorem moduleTree_insert_invariants_witness :
    TreeNodesInv invTreeW.subModules ∧
      invTreeW.ListNodes = dfsFlatten invTreeW.subModules ∧
      invTreeW.iterateAll = dfsFlatten invTreeW.subModules :=
  moduleTree_insert_invariants ⟨""⟩ [("b", []), ("a/c", []), ("a", [])]
    invTreeW (by decide)
